import Mathlib

/-!
# ng-grid: cell editing (`gridEdit.js`) and heap cleanup (`CleanupService.js`)

A shallow embedding of the two services and the properties proved about them.

* Part I models `uiGridEditService` (`isStartEditKey`, `editColumnBuilder`) and the
  closure state of the `uiGridCell` link function (`beginEdit`, `endEdit`, `cancelEdit`
  and the listener bookkeeping around them).
* Part II models `$cleanupService` (`cleanupObject`, `cleanupRow`, `cleanupColumn`,
  `cleanupGrid`, `addBackDollarDestroy`, `decorateDirectiveForHeapCleanup`).

JavaScript objects are association lists from property names to values; object
identity is an index into a heap (a function from indices to objects).
-/

namespace NgGrid

/-! ## JavaScript values reachable through a bound field path -/

/-- Values held by the data a cell is bound to and by configuration objects.  Numbers
carry an integer payload (the edit code only stores and reloads them, it never computes
with them); functions are identified by a tag. -/
inductive JsVal where
  | undefined
  | null
  | bool (b : Bool)
  | num (n : Int)
  | str (s : String)
  | fn (id : Nat)
  | obj (fields : List (String × JsVal))

namespace JsVal

/-- JavaScript truthiness (`if (!propertyObj)` in the `$parse` setter). -/
def truthy : JsVal → Bool
  | undefined => false
  | null => false
  | bool b => b
  | num n => n != 0
  | str s => s != ""
  | fn _ => true
  | obj _ => true

/-- The bound values the edit feature is specified for: strings, numbers and null. -/
def isBoundValue : JsVal → Bool
  | null => true
  | num _ => true
  | str _ => true
  | _ => false

/-- Overwrite the entry for `k`, keeping its position, or append a new one. -/
def setField : List (String × JsVal) → String → JsVal → List (String × JsVal)
  | [], k, x => [(k, x)]
  | (k', v) :: fs, k, x => if k' = k then (k', x) :: fs else (k', v) :: setField fs k x

/-- Property read `v[k]`: own properties of objects, `undefined` otherwise. -/
def prop (v : JsVal) (k : String) : JsVal :=
  match v with
  | obj fs => (fs.lookup k).getD undefined
  | _ => undefined

/-- Property write `v[k] = x` in strict mode, as in the `$parse` setter: a write to a
property of a primitive raises a TypeError, `none`.  A function value holds no
properties here, so a write to one has no result to give either; the statements about a
write that succeeds are made for paths that run through objects only
(`JsVal.assignable`). -/
def assignProp (v : JsVal) (k : String) (x : JsVal) : Option JsVal :=
  match v with
  | obj fs => some (obj (setField fs k x))
  | _ => none

/-- The getter `$parse(path)(s)`: walk the keys, `undefined` once a step is
`null` or `undefined`. -/
def getter : List String → JsVal → JsVal
  | [], s => s
  | k :: ks, s =>
    match s with
    | undefined => undefined
    | null => undefined
    | _ => getter ks (prop s k)

/-- The setter `$parse(path).assign(s, x)` for the path `k :: ks`: every step but the
last descends into the property, first replacing a falsy one by a fresh empty
object; the last key is assigned.  It raises (`none`) where it has to write to a
primitive, that is when a truthy primitive lies on the path; nothing has been written
by then. -/
def setter : JsVal → String → List String → JsVal → Option JsVal
  | o, k, [], x => assignProp o k x
  | o, k, k2 :: ks, x =>
    let p := prop o k
    match setter (if p.truthy then p else obj []) k2 ks x with
    | some q => assignProp o k q
    | none => none

end JsVal

/-- A qualified field path `row.getQualifiedColField(col)`: at least one key. -/
structure FieldPath where
  first : String
  rest : List String

/-- Read the bound value: `$parse(path)($scope)`. -/
def FieldPath.read (p : FieldPath) (s : JsVal) : JsVal :=
  JsVal.getter (p.first :: p.rest) s

/-- Write the bound value: `$parse(path).assign($scope, x)`; `none` when the setter
raises. -/
def FieldPath.assign (p : FieldPath) (s : JsVal) (x : JsVal) : Option JsVal :=
  JsVal.setter s p.first p.rest x

/-! ## `uiGridEditService` -/

/-- The key codes of `uiGridConstants.keymap` that `isStartEditKey` reads. -/
structure Keymap where
  LEFT : Nat
  RIGHT : Nat
  UP : Nat
  DOWN : Nat
  TAB : Nat
  ENTER : Nat

/-- The part of a keydown event that `isStartEditKey` reads. -/
structure KeyEvent where
  keyCode : Nat
  shiftKey : Bool

/-- Source: `isStartEditKey` (gridEdit.js 58-74). -/
def isStartEditKey (keymap : Keymap) (evt : KeyEvent) : Bool :=
  if evt.keyCode = keymap.LEFT ∨
      (evt.keyCode = keymap.TAB ∧ evt.shiftKey = true) ∨
      evt.keyCode = keymap.RIGHT ∨
      evt.keyCode = keymap.TAB ∨
      evt.keyCode = keymap.UP ∨
      (evt.keyCode = keymap.ENTER ∧ evt.shiftKey = true) ∨
      evt.keyCode = keymap.DOWN ∨
      evt.keyCode = keymap.ENTER then
    false
  else
    true

/-- JavaScript `a || b`. -/
def JsVal.or (a b : JsVal) : JsVal :=
  if a.truthy then a else b

/-- The fields of a column definition that `editColumnBuilder` reads; a field the
definition leaves out is `undefined`. -/
structure ColDef where
  enableCellEdit : JsVal
  cellEditableCondition : JsVal
  editableCellTemplate : JsVal
  editableCellDirective : JsVal
  enableCellEditOnFocus : JsVal

/-- The fields of the grid options that `editColumnBuilder` reads. -/
structure GridOptions where
  enableCellEdit : JsVal
  cellEditableCondition : JsVal
  enableCellEditOnFocus : JsVal

/-- The edit fields of a grid column. -/
structure Col where
  enableCellEdit : JsVal
  cellEditableCondition : JsVal
  editableCellTemplate : JsVal
  editableCellDirective : JsVal
  enableCellEditOnFocus : JsVal

/-- Source: `editColumnBuilder` (gridEdit.js 83-102).  `cachedTemplate` is
`$templateCache.get('ui-grid/editableCell')`; the returned promise `$q.all([])` carries
no data and is left out. -/
def editColumnBuilder (cachedTemplate : JsVal) (colDef : ColDef) (col : Col)
    (gridOptions : GridOptions) : Col :=
  let col := { col with
    enableCellEdit :=
      match colDef.enableCellEdit with
      | .undefined => gridOptions.enableCellEdit
      | v => v }
  let col := { col with
    cellEditableCondition :=
      (colDef.cellEditableCondition.or gridOptions.cellEditableCondition).or (.str "true") }
  let col :=
    if col.enableCellEdit.truthy then
      { col with
        editableCellTemplate := colDef.editableCellTemplate.or cachedTemplate
        editableCellDirective := colDef.editableCellDirective.or (.str "ui-grid-text-editor") }
    else col
  { col with
    enableCellEditOnFocus :=
      match colDef.enableCellEditOnFocus with
      | .undefined => gridOptions.enableCellEditOnFocus
      | v => v }

/-! ## The `uiGridCell` link function: per-cell edit state -/

/-- A child element of the cell element `$elm`. -/
structure Elem where
  /-- The markup the element was compiled from when it is an editor appended by
  `beginEdit`; `none` for the read-only presentation. -/
  editorHtml : Option String
  /-- Whether the element carries the class `ui-grid-cell-contents-hidden`. -/
  hidden : Bool
deriving DecidableEq

/-- The event names `beginEdit` subscribes to on `$scope`. -/
inductive Signal where
  | gridScroll
  | endCellEdit
  | cancelCellEdit
deriving DecidableEq

/-- One `$scope.$on` registration made by `beginEdit`: the event name and the edit
session (call of `beginEdit`) whose closure it belongs to. -/
structure Sub where
  session : Nat
  signal : Signal
deriving DecidableEq

/-- Everything the link function of `uiGridCell` reads and writes for one cell. -/
structure Cell where
  /-- Field path `$scope.row.getQualifiedColField($scope.col)`. -/
  qualifiedColField : FieldPath
  /-- Template `$scope.col.editableCellTemplate`. -/
  editableCellTemplate : String
  /-- Directive name `$scope.col.editableCellDirective`. -/
  editableCellDirective : String
  /-- Flag `$scope.col.enableCellEditOnFocus`. -/
  enableCellEditOnFocus : Bool
  /-- Whether `off(type, fn)` removes every registration of `fn` (jQuery) or only the
  first one (jqLite). -/
  offRemovesAll : Bool
  /-- The data reachable from `$scope`. -/
  scope : JsVal
  /-- Closure variable `html`. -/
  html : String
  /-- Closure variable `origCellValue`. -/
  origCellValue : JsVal
  /-- Closure variable `inEdit`. -/
  inEdit : Bool
  /-- Closure variable `cellModel`: the parsed field path, `none` while still undefined. -/
  cellModel : Option FieldPath
  /-- Child elements `$elm.children()`. -/
  children : List Elem
  /-- How many times `beginEdit` is attached to `dblclick` on `$elm`. -/
  dblclick : Nat
  /-- How many times `beginEditKeyDown` is attached to `keydown` on `$elm`. -/
  keydown : Nat
  /-- How many times `beginEditFocus` is attached to `focus` on the inner `div`. -/
  focus : Nat
  /-- The live `$scope.$on` registrations made by `beginEdit`, oldest first. -/
  subs : List Sub
  /-- The number of calls of `beginEdit` so far (names the next session). -/
  sessions : Nat
  /-- The number of `BEGIN_CELL_EDIT` broadcasts so far. -/
  beginBroadcasts : Nat

/-- Registration `elm.on(type, fn)`: one more copy of the handler. -/
def Cell.on (n : Nat) : Nat := n + 1

/-- Removal `elm.off(type, fn)`. -/
def Cell.off (c : Cell) (n : Nat) : Nat :=
  if c.offRemovesAll then 0 else n - 1

/-- Source: `registerBeginEditEvents` (gridEdit.js 216-222). -/
def registerBeginEditEvents (c : Cell) : Cell :=
  { c with
    dblclick := Cell.on c.dblclick
    keydown := Cell.on c.keydown
    focus := if c.enableCellEditOnFocus then Cell.on c.focus else c.focus }

/-- Source: `cancelBeginEditEvents` (gridEdit.js 224-230). -/
def cancelBeginEditEvents (c : Cell) : Cell :=
  { c with
    dblclick := c.off c.dblclick
    keydown := c.off c.keydown
    focus := if c.enableCellEditOnFocus then c.off c.focus else c.focus }

/-- Class toggle `angular.element($elm.children()[0]).addClass/removeClass(...)`. -/
def setHiddenFirst (b : Bool) : List Elem → List Elem
  | [] => []
  | e :: es => { e with hidden := b } :: es

/-- Removal `angular.element($elm.children()[1]).remove()`. -/
def removeSecond : List Elem → List Elem
  | e0 :: _ :: es => e0 :: es
  | es => es

/-- Source: `beginEdit` (gridEdit.js 244-281). -/
def beginEdit (c : Cell) : Cell :=
  let cellModel := c.qualifiedColField
  let origCellValue := cellModel.read c.scope
  let html := c.editableCellTemplate.replace "editable_cell_directive" c.editableCellDirective
  let c := { c with cellModel := some cellModel, origCellValue := origCellValue, html := html }
  -- $scope.$apply(function () ...)
  let c := { c with inEdit := true }
  let c := cancelBeginEditEvents c
  let cellElement : Elem := { editorHtml := some html, hidden := false }
  let c := { c with children := setHiddenFirst true c.children }
  let c := { c with children := c.children ++ [cellElement] }
  -- the three registrations, then the broadcast
  { c with
    subs := c.subs ++ [⟨c.sessions, .gridScroll⟩, ⟨c.sessions, .endCellEdit⟩,
      ⟨c.sessions, .cancelCellEdit⟩]
    sessions := c.sessions + 1
    beginBroadcasts := c.beginBroadcasts + 1 }

/-- Source: `endEdit` (gridEdit.js 283-291). -/
def endEdit (c : Cell) : Cell :=
  if !c.inEdit then c
  else
    let c := { c with children := removeSecond c.children }
    let c := { c with children := setHiddenFirst false c.children }
    let c := { c with inEdit := false }
    registerBeginEditEvents c

/-- Source: `cancelEdit` (gridEdit.js 293-301), as a call that may raise.  The call
`cellModel.assign` raises a TypeError when `cellModel` is still undefined or a primitive
lies on the path; the function is abandoned there, before anything has been changed, and
the result is `none`. -/
def cancelEditCall (c : Cell) : Option Cell :=
  if !c.inEdit then some c
  else
    match c.cellModel with
    | none => none
    | some cellModel =>
      match cellModel.assign c.scope c.origCellValue with
      | none => none
      | some scope => some (endEdit { c with scope := scope })

/-- The state a call of `cancelEdit` leaves behind: the state it returns with, or, where
it raises, the state it was called in. -/
def cancelEdit (c : Cell) : Cell :=
  (cancelEditCall c).getD c

/-- Source: `beginEditFocus` (gridEdit.js 232-235). -/
def beginEditFocus (c : Cell) : Cell :=
  beginEdit c

/-- Source: `beginEditKeyDown` (gridEdit.js 238-242). -/
def beginEditKeyDown (keymap : Keymap) (evt : KeyEvent) (c : Cell) : Cell :=
  if isStartEditKey keymap evt then beginEdit c else c

/-- The body of the handler `beginEdit` registers for a signal (gridEdit.js 263-278),
without its closing self-deregistration; `none` when it raises. -/
def Signal.handler : Signal → Cell → Option Cell
  | .gridScroll, c => some (endEdit c)
  | .endCellEdit, c => some (endEdit c)
  | .cancelCellEdit, c => cancelEditCall c

/-- One registered handler runs: its body, then its own deregistration function.  A
handler that raises does not get to its deregistration; the dispatch catches the error
and goes on with the state as it is.  A registration that is no longer live is
skipped. -/
def runSub (c : Cell) (sub : Sub) : Cell :=
  if sub ∈ c.subs then
    match sub.signal.handler c with
    | some c1 => { c1 with subs := c1.subs.erase sub }
    | none => c
  else c

/-- The signal reaches `$scope`: the handlers registered for it when the dispatch
starts run in registration order. -/
def fire (s : Signal) (c : Cell) : Cell :=
  (c.subs.filter (fun sub => sub.signal = s)).foldl runSub c

/-- The editor writes `v` to the bound field (its `ng-model` is the same qualified
field path); a write that raises leaves the data as it is. -/
def editorWrite (v : JsVal) (c : Cell) : Cell :=
  { c with scope := (c.qualifiedColField.assign c.scope v).getD c.scope }

/-- The events a cell reacts to. -/
inductive Event where
  | dblclick
  | keydown (evt : KeyEvent)
  | focus
  | signal (s : Signal)
  | editorWrite (v : JsVal)

/-- One event is handled to completion.  A DOM event runs every handler attached when
the dispatch starts, once per registration. -/
def step (keymap : Keymap) (c : Cell) : Event → Cell
  | .dblclick => Nat.iterate beginEdit c.dblclick c
  | .keydown evt => Nat.iterate (beginEditKeyDown keymap evt) c.keydown c
  | .focus => Nat.iterate beginEditFocus c.focus c
  | .signal s => fire s c
  | .editorWrite v => editorWrite v c

/-- The configuration the link function finds on `$scope` and `$elm`. -/
structure CellConfig where
  /-- Flag `$scope.col.colDef.enableCellEdit`. -/
  enableCellEdit : Bool
  qualifiedColField : FieldPath
  editableCellTemplate : String
  editableCellDirective : String
  enableCellEditOnFocus : Bool
  offRemovesAll : Bool
  scope : JsVal

/-- Source: `link` of `uiGridCell` (gridEdit.js 204-214).  The base `uiGridCell`
directive has rendered the read-only presentation as the single child of `$elm`, the
element that `children()[0]` addresses and after which the editor becomes
`children()[1]`. -/
def link (cfg : CellConfig) : Cell :=
  let c : Cell :=
    { qualifiedColField := cfg.qualifiedColField
      editableCellTemplate := cfg.editableCellTemplate
      editableCellDirective := cfg.editableCellDirective
      enableCellEditOnFocus := cfg.enableCellEditOnFocus
      offRemovesAll := cfg.offRemovesAll
      scope := cfg.scope
      html := ""
      origCellValue := .undefined
      inEdit := false
      cellModel := none
      children := [{ editorHtml := none, hidden := false }]
      dblclick := 0
      keydown := 0
      focus := 0
      subs := []
      sessions := 0
      beginBroadcasts := 0 }
  if !cfg.enableCellEdit then c else registerBeginEditEvents c

/-- The cell after a sequence of events. -/
def run (keymap : Keymap) (c : Cell) (evs : List Event) : Cell :=
  evs.foldl (step keymap) c

/-! ## `$cleanupService`: the object graph of a grid -/

/-- Property values of the grid, row, column and scope objects, as far as the cleanup
tells them apart. -/
inductive Val where
  | null
  /-- Any value the cleanup does not follow (numbers, strings, functions, styles). -/
  | data (n : Nat)
  /-- A reference to a row object. -/
  | row (id : Nat)
  /-- An array of row objects (`rowCache`, `renderedRows`). -/
  | rowList (ids : List Nat)
  /-- An array of column objects (`columns`). -/
  | colList (ids : List Nat)
  /-- A reference to a provider object (`searchProvider`, `eventProvider`). -/
  | ref (id : Nat)
  /-- A DOM element (`$headerScroller`, `$viewport`). -/
  | elem (id : Nat)
deriving DecidableEq

/-- An object: its own enumerable properties in enumeration order. -/
abbrev Obj := List (String × Val)

/-- Property assignment `o[k] = x`: overwrite in place or add a new own property. -/
def Obj.set : Obj → String → Val → Obj
  | [], k, x => [(k, x)]
  | (k', v) :: o, k, x => if k' = k then (k', x) :: o else (k', v) :: Obj.set o k x

/-- Every own enumerable property of the object is null. -/
def Obj.AllNull (o : Obj) : Prop :=
  ∀ kv ∈ o, kv.2 = Val.null

/-- The row a row object's `clone` property refers to, if it holds one. -/
def Obj.clone (o : Obj) : Option Nat :=
  match o.lookup "clone" with
  | some (.row c) => some c
  | _ => none

/-- The targets of `cleanupObject`. -/
inductive Target where
  | row (id : Nat)
  | col (id : Nat)
  | grid
deriving DecidableEq

/-- The two listeners `decorateDirectiveForHeapCleanup` registers for `$destroy`. -/
inductive DestroyListener where
  | cleanupElementNgGrid
  | cleanupScopeAndGrid
deriving DecidableEq

/-- The objects the cleanup service reads and writes for one grid. -/
structure World where
  /-- The row objects, by identity. -/
  rows : Nat → Obj
  /-- The column objects, by identity. -/
  cols : Nat → Obj
  /-- The provider objects, by identity. -/
  providers : Nat → Obj
  /-- The own properties of the grid object. -/
  grid : Obj
  /-- The own properties of `$scope`. -/
  scope : Obj
  /-- The DOM elements attached to the document. -/
  document : List Nat
  /-- The listeners registered on `$scope` for `$destroy`, in registration order. -/
  destroyListeners : List DestroyListener
  /-- The number of deferred forced disposals handed to `$timeout`. -/
  timeouts : Nat
  /-- The calls of `cleanupObject` so far, oldest first; nothing reads it back. -/
  trace : List Target

/-- Source: `cleanupObject` (CleanupService.js 28-34), on the properties of one object. -/
def cleanupObject (o : Obj) : Obj :=
  o.map (fun kv => (kv.1, Val.null))

/-- Source: `cleanupRow` (CleanupService.js 52-59).  The recursion follows the clone
references; `fuel` bounds its depth and `none` is returned when it runs out, or when
`row.clone.orig = null` finds `row.clone` no longer set. -/
def cleanupRow : Nat → World → Nat → Option World
  | 0, _, _ => none
  | fuel + 1, w, row =>
    match (w.rows row).clone with
    | some c =>
      match cleanupRow fuel w c with
      | none => none
      | some w1 =>
        match (w1.rows row).clone with
        | none => none
        | some c1 =>
          let w2 := { w1 with rows := Function.update w1.rows c1 ((w1.rows c1).set "orig" Val.null) }
          some { w2 with
            rows := Function.update w2.rows row (cleanupObject (w2.rows row))
            trace := w2.trace ++ [.row row] }
    | none =>
      some { w with
        rows := Function.update w.rows row (cleanupObject (w.rows row))
        trace := w.trace ++ [.row row] }

/-- Source: `cleanupColumn` (CleanupService.js 63-65). -/
def cleanupColumn (w : World) (col : Nat) : World :=
  { w with
    cols := Function.update w.cols col (cleanupObject (w.cols col))
    trace := w.trace ++ [.col col] }

/-- The loop `for (var r in rows) cleanupRow(rows[r])`. -/
def cleanupRows (fuel : Nat) : World → List Nat → Option World
  | w, [] => some w
  | w, r :: rs =>
    match cleanupRow fuel w r with
    | none => none
    | some w1 => cleanupRows fuel w1 rs

/-- The row objects an array-valued property holds; nothing to enumerate otherwise. -/
def Obj.rowsAt (o : Obj) (k : String) : List Nat :=
  match o.lookup k with
  | some (.rowList ids) => ids
  | _ => []

/-- The column objects an array-valued property holds; nothing to enumerate otherwise. -/
def Obj.colsAt (o : Obj) (k : String) : List Nat :=
  match o.lookup k with
  | some (.colList ids) => ids
  | _ => []

/-- Removal `$(x).remove()` of the element a property holds, if it holds one. -/
def removeElem (doc : List Nat) (x : Option Val) : List Nat :=
  match x with
  | some (.elem e) => doc.filter (fun d => d != e)
  | _ => doc

/-- Source: CleanupService.js 38, `grid.searchProvider && (grid.searchProvider.extFilter = null)`. -/
def clearExtFilter (w : World) : World :=
  match w.grid.lookup "searchProvider" with
  | some (.ref p) =>
    { w with providers := Function.update w.providers p ((w.providers p).set "extFilter" Val.null) }
  | _ => w

/-- Source: CleanupService.js 40-41, `$(grid[k]).remove()`. -/
def detachElement (w : World) (k : String) : World :=
  { w with document := removeElem w.document (w.grid.lookup k) }

/-- Source: `cleanupGrid` (CleanupService.js 37-49). -/
def cleanupGrid (fuel : Nat) (w : World) : Option World :=
  let w := clearExtFilter w
  let w := detachElement w "$headerScroller"
  let w := detachElement w "$viewport"
  match cleanupRows fuel w (w.grid.rowsAt "rowCache") with
  | none => none
  | some w1 => some { w1 with grid := cleanupObject w1.grid, trace := w1.trace ++ [.grid] }

/-- The `$scope` properties that `cleanupScopeAndGrid` sets to null one by one
(CleanupService.js 154-191), in source order. -/
def scopeClosureFields : List String :=
  ["adjustScrollLeft", "adjustScrollTop", "cantPageBackward", "cantPageForward",
   "cantPageToLast", "cantPageToLast", "cantpageBackward", "canvasStyle",
   "domAccessProvider", "footerStyle", "groupBy", "groupPanelStyle", "headerCellStyle",
   "headerScrollerDim", "headerScrollerStyle", "headerStyle", "maxPages", "maxRows",
   "multiSelect", "pageBackward", "pageForward", "pageToFirst", "pageToLast",
   "pagingOptions", "removeGroup", "rowStyle", "selectedItemCount", "selectionProvider",
   "showGroupPanel", "togglePin", "toggleSelectAll", "toggleShowMenu", "topPanelHeight",
   "topPanelStyle", "totalFilteredItemsLength", "totalRowWidth", "viewportDimHeight",
   "viewportStyle"]

/-- Source: the listener `cleanupScopeAndGrid` (CleanupService.js 149-213). -/
def cleanupScopeAndGrid (fuel : Nat) (w : World) : Option World :=
  let w := { w with scope := scopeClosureFields.foldl (fun o k => o.set k Val.null) w.scope }
  let w := (w.scope.colsAt "columns").foldl cleanupColumn w
  let w := { w with scope := w.scope.set "columns" Val.null }
  let w := { w with scope := w.scope.set "renderedColumns" Val.null }
  match cleanupRows fuel w (w.scope.rowsAt "renderedRows") with
  | none => none
  | some w1 =>
    let w2 := { w1 with scope := w1.scope.set "renderedRows" Val.null }
    cleanupGrid fuel w2

/-- Source: the listener `cleanupElementNgGrid` (CleanupService.js 127-135): the forced
disposal is handed to `$timeout`. -/
def cleanupElementNgGrid (w : World) : World :=
  { w with timeouts := w.timeouts + 1 }

/-- The value `angular.noop`. -/
def angularNoop : Val := .data 0

/-- Source: `decorateDomElement2` (CleanupService.js 126-136): the listener that defers
the forced disposal is registered for `$destroy`. -/
def decorateDomElement2 (w : World) : World :=
  { w with destroyListeners := w.destroyListeners ++ [DestroyListener.cleanupElementNgGrid] }

/-- Source: `decorateDirectiveForHeapCleanup` (CleanupService.js 141-214).  Without an
event provider on the grid the assignment to `assignEvents` raises: `none`. -/
def decorateDirectiveForHeapCleanup (w : World) : Option World :=
  let w := decorateDomElement2 w
  match w.grid.lookup "eventProvider" with
  | some (.ref p) =>
    let w := { w with
      providers := Function.update w.providers p ((w.providers p).set "assignEvents" angularNoop) }
    some { w with destroyListeners := w.destroyListeners ++ [DestroyListener.cleanupScopeAndGrid] }
  | _ => none

/-- One `$destroy` listener runs. -/
def runDestroyListener (fuel : Nat) (w : World) : DestroyListener → Option World
  | .cleanupElementNgGrid => some (cleanupElementNgGrid w)
  | .cleanupScopeAndGrid => cleanupScopeAndGrid fuel w

/-- The listeners in `ls` run one after the other. -/
def runDestroyListeners (fuel : Nat) : World → List DestroyListener → Option World
  | w, [] => some w
  | w, l :: ls =>
    match runDestroyListener fuel w l with
    | none => none
    | some w1 => runDestroyListeners fuel w1 ls

/-- The `$destroy` signal reaches `$scope`: every registered listener runs, in
registration order. -/
def fireDestroy (fuel : Nat) (w : World) : Option World :=
  runDestroyListeners fuel w w.destroyListeners

/-- The row heap `h` against the heap `h0` at the start of the teardown: every row is
either as it was or has all its properties null. -/
def Swept (h h0 : Nat → Obj) : Prop :=
  ∀ j, (h j).AllNull ∨ h j = h0 j

/-- With every row whose properties are all null, the clone it had at the start of the
teardown has all its properties null as well. -/
def Closed (h0 h : Nat → Obj) : Prop :=
  ∀ j c, (h j).AllNull → (h0 j).clone = some c → (h c).AllNull

/-- What the teardown relies on, and keeps: the clone references at its start descend
along `rank`, the rows are swept consistently, and `fuel` exceeds the rank of every row
still listed in the row cache and the rendered rows. -/
structure Ready (rank : Nat → Nat) (fuel : Nat) (h0 : Nat → Obj) (w : World) : Prop where
  acyclic : ∀ j c, (h0 j).clone = some c → rank c < rank j
  swept : Swept w.rows h0
  closed : Closed h0 w.rows
  bound : ∀ r ∈ w.grid.rowsAt "rowCache" ++ w.scope.rowsAt "renderedRows", rank r < fuel

/-- The state a sweep leaves behind: the grid's properties all null, and no columns or
rendered rows listed on `$scope` any more. -/
structure SweptClean (w : World) : Prop where
  grid : w.grid.AllNull
  closureFields : ∀ k ∈ scopeClosureFields, w.scope.lookup k = some Val.null
  columns : w.scope.lookup "columns" = some Val.null
  renderedColumns : w.scope.lookup "renderedColumns" = some Val.null
  renderedRows : w.scope.lookup "renderedRows" = some Val.null

/-- The step from `w` to `w1` touched row objects only and added only row targets to
the trace. -/
def RowsOnly (w w1 : World) : Prop :=
  w1.cols = w.cols ∧ w1.providers = w.providers ∧ w1.grid = w.grid ∧ w1.scope = w.scope ∧
  w1.document = w.document ∧ w1.destroyListeners = w.destroyListeners ∧
  w1.timeouts = w.timeouts ∧
  ∃ t, w1.trace = w.trace ++ t ∧ ∀ x ∈ t, ∃ r, x = Target.row r

/-- A grid with two rows in its row cache, the first with a clone that is the one
rendered row, and one column. -/
def sampleWorld : World :=
  { rows := fun i =>
      if i = 0 then [("entity", .data 1), ("clone", .row 1)]
      else if i = 1 then [("entity", .data 1), ("orig", .row 0)]
      else if i = 2 then [("entity", .data 2)]
      else []
    cols := fun i => if i = 0 then [("field", .data 7)] else []
    providers := fun i =>
      if i = 0 then [("assignEvents", .data 5)]
      else if i = 1 then [("extFilter", .data 3)]
      else []
    grid := [("rowCache", .rowList [0, 2]), ("searchProvider", .ref 1),
      ("eventProvider", .ref 0), ("$headerScroller", .elem 0), ("$viewport", .elem 1)]
    scope := [("columns", .colList [0]), ("renderedRows", .rowList [1]), ("maxRows", .data 9)]
    document := [0, 1, 2]
    destroyListeners := []
    timeouts := 0
    trace := [] }

/-- A rank for the clone references of `sampleWorld`. -/
def sampleRank (i : Nat) : Nat :=
  if i = 0 then 1 else 0

/-! ## `addBackDollarDestroy`: the scope tree -/

/-- A JavaScript number as far as listener counts go: an integer, or `none` for NaN. -/
abbrev Count := Option Int

/-- Subtraction `a - b`, NaN once an operand is NaN. -/
def Count.sub (a b : Count) : Count :=
  match a, b with
  | some x, some y => some (x - y)
  | _, _ => none

/-- Addition `a + b`, NaN once an operand is NaN. -/
def Count.add (a b : Count) : Count :=
  match a, b with
  | some x, some y => some (x + y)
  | _, _ => none

/-- A listener-count table `$$listenerCount`: event name to count, in enumeration order. -/
abbrev CountTable := List (String × Count)

/-- The value `t[name]` as an operand of arithmetic: a missing entry (`undefined`)
counts as NaN. -/
def CountTable.get (t : CountTable) (name : String) : Count :=
  match t.lookup name with
  | some v => v
  | none => none

/-- Assignment `t[name] = v`: overwrite in place or add a new entry. -/
def CountTable.set : CountTable → String → Count → CountTable
  | [], k, x => [(k, x)]
  | (k', v) :: t, k, x => if k' = k then (k', x) :: t else (k', v) :: CountTable.set t k x

/-- Removal `delete t[name]`. -/
def CountTable.delete (t : CountTable) (name : String) : CountTable :=
  t.filter (fun e => e.1 != name)

/-- The sum of the counts of a table. -/
def CountTable.sum : CountTable → Count
  | [] => some 0
  | e :: t => Count.add e.2 (CountTable.sum t)

/-- Source: the loop body of `decrementListenerCount` (CleanupService.js 80-84) on one
table: subtract, then delete the entry once it is exactly zero. -/
def CountTable.decrement (t : CountTable) (count : Count) (name : String) : CountTable :=
  let v := Count.sub (t.get name) count
  let t := t.set name v
  if v = some 0 then t.delete name else t

/-- The function a method slot of a scope holds. -/
inductive Method where
  /-- The method the framework put there. -/
  | original
  /-- The disposal routine installed by `addBackDollarDestroy`. -/
  | rebuilt
  /-- A stub: `angular.noop`, or for `$on`/`$watch` a function returning it. -/
  | stub
deriving DecidableEq

/-- A scope, as far as the rebuilt disposal routine reads and writes it. -/
structure ScopeNode where
  parent : Option Nat
  nextSibling : Option Nat
  prevSibling : Option Nat
  childHead : Option Nat
  childTail : Option Nat
  root : Option Nat
  /-- The table `$$listenerCount`. -/
  listenerCount : CountTable
  /-- The registered listeners `$$listeners`, by event name. -/
  listeners : List (String × List Nat)
  /-- The queue `$$watchers`. -/
  watchers : List Nat
  /-- The queue `$$asyncQueue`. -/
  asyncQueue : List Nat
  /-- The queue `$$postDigestQueue`. -/
  postDigestQueue : List Nat
  /-- The flag `$$destroyed`. -/
  destroyed : Bool
  /-- The method `$destroy`. -/
  destroyMethod : Method
  /-- The methods `$digest` and `$apply`. -/
  digestApply : Method
  /-- The methods `$on` and `$watch`. -/
  onWatch : Method
  /-- The flag `destroyedByForce`. -/
  destroyedByForce : Bool

/-- The scopes, by identity. -/
abbrev ScopeHeap := Nat → ScopeNode

/-- How a run of the rebuilt disposal routine ends. -/
inductive Outcome where
  /-- The routine ran to its end. -/
  | done (h : ScopeHeap)
  /-- A TypeError was raised (a property read from a null parent), with the heap as the
  routine had left it by then. -/
  | raised (h : ScopeHeap)
  /-- The walk up the parent chain did not end within the fuel given. -/
  | outOfFuel

/-- The heap an outcome leaves behind. -/
def Outcome.heap : Outcome → Option ScopeHeap
  | .done h => some h
  | .raised h => some h
  | .outOfFuel => none

/-- Source: `decrementListenerCount` (CleanupService.js 78-86): the do-while loop up the
parent chain; `fuel` bounds the number of scopes visited. -/
def decrementListenerCount : Nat → ScopeHeap → Nat → Count → String → Option ScopeHeap
  | 0, _, _, _, _ => none
  | fuel + 1, h, current, count, name =>
    let h1 := Function.update h current
      { h current with listenerCount := (h current).listenerCount.decrement count name }
    match (h1 current).parent with
    | some p => decrementListenerCount fuel h1 p count name
    | none => some h1

/-- Source: CleanupService.js 93, `angular.forEach(scope.$$listenerCount, ...)` over the
names enumerated: a name deleted in the meantime is skipped, otherwise the callback gets
the count the table holds for it now. -/
def forEachListenerCount (fuel : Nat) : ScopeHeap → Nat → List String → Option ScopeHeap
  | h, _, [] => some h
  | h, scope, name :: names =>
    match (h scope).listenerCount.lookup name with
    | none => forEachListenerCount fuel h scope names
    | some count =>
      match decrementListenerCount fuel h scope count name with
      | none => none
      | some h1 => forEachListenerCount fuel h1 scope names

/-- Source: `addBackDollarDestroy` (CleanupService.js 71-124): the scope gets the rebuilt
routine as its `$destroy`. -/
def addBackDollarDestroy (h : ScopeHeap) (scope : Nat) : ScopeHeap :=
  Function.update h scope { h scope with destroyMethod := .rebuilt }

/-- Source: CleanupService.js 97,
`if (parent.$$childHead == scope) parent.$$childHead = scope.$$nextSibling`. -/
def relinkHead (h : ScopeHeap) (par scope : Nat) : ScopeHeap :=
  if (h par).childHead = some scope then
    Function.update h par { h par with childHead := (h scope).nextSibling }
  else h

/-- Source: CleanupService.js 98,
`if (parent.$$childTail == scope) parent.$$childTail = scope.$$prevSibling`. -/
def relinkTail (h : ScopeHeap) (par scope : Nat) : ScopeHeap :=
  if (h par).childTail = some scope then
    Function.update h par { h par with childTail := (h scope).prevSibling }
  else h

/-- Source: CleanupService.js 99,
`if (scope.$$prevSibling) scope.$$prevSibling.$$nextSibling = scope.$$nextSibling`. -/
def relinkPrev (h : ScopeHeap) (scope : Nat) : ScopeHeap :=
  match (h scope).prevSibling with
  | some ps => Function.update h ps { h ps with nextSibling := (h scope).nextSibling }
  | none => h

/-- Source: CleanupService.js 100,
`if (scope.$$nextSibling) scope.$$nextSibling.$$prevSibling = scope.$$prevSibling`. -/
def relinkNext (h : ScopeHeap) (scope : Nat) : ScopeHeap :=
  match (h scope).nextSibling with
  | some ns => Function.update h ns { h ns with prevSibling := (h scope).prevSibling }
  | none => h

/-- Source: CleanupService.js 97-100: the scope is taken out of its parent's child list
and out of the sibling links. -/
def unlinkFromParent (h : ScopeHeap) (par scope : Nat) : ScopeHeap :=
  relinkNext (relinkPrev (relinkTail (relinkHead h par scope) par scope) scope) scope

/-- Source: CleanupService.js 111-122: the scope's own links are nulled, its listeners
and queues emptied and its methods stubbed. -/
def severScope (h : ScopeHeap) (scope : Nat) : ScopeHeap :=
  Function.update h scope
    { h scope with
      parent := none, nextSibling := none, prevSibling := none, childHead := none,
      childTail := none, root := none,
      listeners := [],
      watchers := [], asyncQueue := [], postDigestQueue := [],
      destroyMethod := .stub, digestApply := .stub,
      onWatch := .stub }

/-- Source: the routine `addBackDollarDestroy` installs (CleanupService.js 72-123), run
on `scope`.  A scope without a parent gets as far as the listener counts; the read of
`parent.$$childHead` then raises. -/
def rebuiltDestroy (fuel : Nat) (h : ScopeHeap) (scope : Nat) : Outcome :=
  let parent := (h scope).parent
  let h := Function.update h scope { h scope with destroyed := true }
  match forEachListenerCount fuel h scope ((h scope).listenerCount.map Prod.fst) with
  | none => .outOfFuel
  | some h =>
    match parent with
    | none => .raised h
    | some par => .done (severScope (unlinkFromParent h par scope) scope)

/-- Source: the callback `decorateDomElement2` hands to `$timeout` (CleanupService.js
129-134): install the routine, call it, and flag the scope. -/
def forcedDestroy (fuel : Nat) (h : ScopeHeap) (scope : Nat) : Outcome :=
  match rebuiltDestroy fuel (addBackDollarDestroy h scope) scope with
  | .done h1 => .done (Function.update h1 scope { h1 scope with destroyedByForce := true })
  | r => r

/-- The parent chain of `scope` is the finite list `l`, nearest ancestor first. -/
def Ancestors (h : ScopeHeap) : Nat → List Nat → Prop
  | scope, [] => (h scope).parent = none
  | scope, p :: l => (h scope).parent = some p ∧ Ancestors h p l

/-- A well-formed table: no name twice, and every count a number. -/
def CountTable.WF (t : CountTable) : Prop :=
  (t.map Prod.fst).Nodup ∧ ∀ e ∈ t, e.2 ≠ none

/-- The heap `h` with the tables of the scopes in `visited` decremented for one name:
what one walk of `decrementListenerCount` over those scopes leaves. -/
def decrementAt (h : ScopeHeap) (visited : List Nat) (count : Count) (name : String) :
    ScopeHeap :=
  fun j =>
    if j ∈ visited then
      { h j with listenerCount := (h j).listenerCount.decrement count name }
    else h j

/-- The heap `h` with the tables of the scopes in `visited` decremented for every entry
of `entries` in turn. -/
def decrementAll (h : ScopeHeap) (visited : List Nat) (entries : CountTable) : ScopeHeap :=
  fun j =>
    if j ∈ visited then
      { h j with
        listenerCount := entries.foldl (fun t e => t.decrement e.2 e.1) (h j).listenerCount }
    else h j

/-- A root scope 0 with a child 1 that has a child 2; scope 2 holds three listeners. -/
def sampleHeap : ScopeHeap := fun i =>
  { parent := if i = 2 then some 1 else if i = 1 then some 0 else none
    nextSibling := none
    prevSibling := none
    childHead := if i = 0 then some 1 else if i = 1 then some 2 else none
    childTail := if i = 0 then some 1 else if i = 1 then some 2 else none
    root := some 0
    listenerCount :=
      if i = 2 then [("$destroy", some 2), ("scroll", some 1)]
      else if i = 1 then [("scroll", some 1), ("$destroy", some 3)]
      else if i = 0 then [("$destroy", some 3), ("resize", some 4), ("scroll", some 5)]
      else []
    listeners := []
    watchers := []
    asyncQueue := []
    postDigestQueue := []
    destroyed := false
    destroyMethod := .original
    digestApply := .original
    onWatch := .original
    destroyedByForce := false }

/-- Whether `setter` reaches the last key of `k :: ks` through objects only, so that its
assignment lands in `s`. -/
def JsVal.assignable : JsVal → String → List String → Bool
  | .obj _, _, [] => true
  | .obj fs, k, k2 :: ks =>
    let p := JsVal.prop (.obj fs) k
    if p.truthy then JsVal.assignable p k2 ks else true
  | _, _, _ => false

/-- A cell bound to `row.entity.name`, used to instantiate the statements below. -/
def sampleConfig : CellConfig :=
  { enableCellEdit := true
    qualifiedColField := ⟨"row", ["entity", "name"]⟩
    editableCellTemplate := "<div editable_cell_directive></div>"
    editableCellDirective := "ui-grid-text-editor"
    enableCellEditOnFocus := true
    offRemovesAll := false
    scope := .obj [("row", .obj [("entity", .obj [("name", .str "Bob")])])] }

/-- A cell bound to `row.entity.name` where `row.entity` is the number 5: a truthy
primitive lies on the path. -/
def primitiveOnPathConfig : CellConfig :=
  { sampleConfig with scope := .obj [("row", .obj [("entity", .num 5)])] }

/-- The key codes of `uiGridConstants.keymap` in the browser. -/
def sampleKeymap : Keymap :=
  { LEFT := 37, RIGHT := 39, UP := 38, DOWN := 40, TAB := 9, ENTER := 13 }

/-- The begin-edit listeners and the child elements agree with `inEdit`: attached once
and only the visible read-only presentation while idle; detached and the hidden
presentation followed by one editor element while editing. -/
def Cell.Inv (c : Cell) : Prop :=
  (c.inEdit = false →
    c.dblclick = 1 ∧ c.keydown = 1 ∧ c.focus = (if c.enableCellEditOnFocus then 1 else 0) ∧
    c.children = [{ editorHtml := none, hidden := false }]) ∧
  (c.inEdit = true →
    c.dblclick = 0 ∧ c.keydown = 0 ∧ c.focus = 0 ∧
    ∃ html, c.children =
      [{ editorHtml := none, hidden := true }, { editorHtml := some html, hidden := false }])

/-- The number of editor elements among the cell's children. -/
def Cell.editorCount (c : Cell) : Nat :=
  (c.children.filter (fun e => e.editorHtml.isSome)).length

/-- The pointer, keyboard and focus events, which reach the begin-edit listeners. -/
def Event.isBeginTrigger : Event → Bool
  | .dblclick => true
  | .keydown _ => true
  | .focus => true
  | _ => false

/-- The sibling links along `l`: every scope of the list points back to the one before
it (`prev` for the first) and forward to the one after it (null for the last). -/
def SiblingChain (h : ScopeHeap) : Option Nat → List Nat → Prop
  | _, [] => True
  | prev, c :: cs =>
    (h c).prevSibling = prev ∧ (h c).nextSibling = cs.head? ∧ SiblingChain h (some c) cs

/-- The child list of `par` is the well-formed doubly linked list `l`: `$$childHead` is
its first and `$$childTail` its last scope, no scope occurs twice, and the sibling links
run along it, null at both ends. -/
def ChildList (h : ScopeHeap) (par : Nat) (l : List Nat) : Prop :=
  (h par).childHead = l.head? ∧ (h par).childTail = l.getLast? ∧ l.Nodup ∧
  SiblingChain h none l

/-- The heaps `h1` and `h` agree on the tree links of every scope. -/
def SameLinks (h1 h : ScopeHeap) : Prop :=
  ∀ j, (h1 j).parent = (h j).parent ∧ (h1 j).nextSibling = (h j).nextSibling ∧
    (h1 j).prevSibling = (h j).prevSibling ∧ (h1 j).childHead = (h j).childHead ∧
    (h1 j).childTail = (h j).childTail ∧ (h1 j).root = (h j).root

/-- A root scope 0 with the three children 1, 2 and 3, in that order; scope 2 holds a
listener. -/
def sampleSiblings : ScopeHeap := fun i =>
  { parent := if i = 1 ∨ i = 2 ∨ i = 3 then some 0 else none
    nextSibling := if i = 1 then some 2 else if i = 2 then some 3 else none
    prevSibling := if i = 2 then some 1 else if i = 3 then some 2 else none
    childHead := if i = 0 then some 1 else none
    childTail := if i = 0 then some 3 else none
    root := some 0
    listenerCount :=
      if i = 2 then [("scroll", some 1)]
      else if i = 0 then [("scroll", some 2)]
      else []
    listeners := []
    watchers := []
    asyncQueue := []
    postDigestQueue := []
    destroyed := false
    destroyMethod := .original
    digestApply := .original
    onWatch := .original
    destroyedByForce := false }

/-- The cell in the middle of an edit session: after `beginEdit` and the writes the
editor has made to the bound field since. -/
def sessionState (c : Cell) (writes : List JsVal) : Cell :=
  writes.foldl (fun c v => editorWrite v c) (beginEdit c)

/-! # Theorems -/

/-! ## C2: the edit-start-key classifier -/

/-- C2: `isStartEditKey` returns false exactly when the key code is one of LEFT, RIGHT,
UP, DOWN, TAB, ENTER, whatever the shift flag is, and true for every other event. -/
theorem isStartEditKey_spec (keymap : Keymap) (evt : KeyEvent) :
    (isStartEditKey keymap evt = false ↔
      (evt.keyCode = keymap.LEFT ∨ evt.keyCode = keymap.RIGHT ∨ evt.keyCode = keymap.UP ∨
        evt.keyCode = keymap.DOWN ∨ evt.keyCode = keymap.TAB ∨ evt.keyCode = keymap.ENTER)) ∧
    (isStartEditKey keymap evt = true ↔
      ¬ (evt.keyCode = keymap.LEFT ∨ evt.keyCode = keymap.RIGHT ∨ evt.keyCode = keymap.UP ∨
        evt.keyCode = keymap.DOWN ∨ evt.keyCode = keymap.TAB ∨ evt.keyCode = keymap.ENTER)) := by
  unfold isStartEditKey
  constructor
  · split <;> simp_all
    tauto
  · split <;> simp_all
    tauto

/-! ## C5: `endEdit` and `cancelEdit` on an idle cell -/

theorem endEdit_of_idle (c : Cell) (h : c.inEdit = false) : endEdit c = c := by
  simp [endEdit, h]

theorem cancelEditCall_of_idle (c : Cell) (h : c.inEdit = false) :
    cancelEditCall c = some c := by
  simp [cancelEditCall, h]

/-- The three ways a call of `cancelEdit` goes: it raises, it returns at once on an idle
cell, or it rolls the value back and ends the edit. -/
theorem cancelEditCall_cases (c : Cell) :
    cancelEditCall c = none ∨
    (c.inEdit = false ∧ cancelEditCall c = some c) ∨
    ∃ m scope, c.inEdit = true ∧ c.cellModel = some m ∧
      m.assign c.scope c.origCellValue = some scope ∧
      cancelEditCall c = some (endEdit { c with scope := scope }) := by
  cases hin : c.inEdit with
  | false => right; left; exact ⟨rfl, cancelEditCall_of_idle c hin⟩
  | true =>
    cases hm : c.cellModel with
    | none => left; simp [cancelEditCall, hin, hm]
    | some m =>
      cases ha : m.assign c.scope c.origCellValue with
      | none => left; simp [cancelEditCall, hin, hm, ha]
      | some scope =>
        right; right
        exact ⟨m, scope, rfl, rfl, ha, by simp [cancelEditCall, hin, hm, ha]⟩

theorem cancelEdit_of_idle (c : Cell) (h : c.inEdit = false) : cancelEdit c = c := by
  simp [cancelEdit, cancelEditCall_of_idle c h]

theorem endEdit_inEdit (c : Cell) : (endEdit c).inEdit = false := by
  unfold endEdit
  split
  · simp_all
  · simp [registerBeginEditEvents]

theorem endEdit_scope (c : Cell) : (endEdit c).scope = c.scope := by
  unfold endEdit
  split <;> simp [registerBeginEditEvents]

theorem endEdit_qualifiedColField (c : Cell) :
    (endEdit c).qualifiedColField = c.qualifiedColField := by
  unfold endEdit
  split <;> simp [registerBeginEditEvents]

theorem endEdit_idem (c : Cell) : endEdit (endEdit c) = endEdit c :=
  endEdit_of_idle _ (endEdit_inEdit c)

theorem cancelEdit_idem (c : Cell) : cancelEdit (cancelEdit c) = cancelEdit c := by
  rcases cancelEditCall_cases c with h | ⟨-, h⟩ | ⟨m, scope, -, -, -, h⟩
  · have h1 : cancelEdit c = c := by simp [cancelEdit, h]
    rw [h1, h1]
  · have h1 : cancelEdit c = c := by simp [cancelEdit, h]
    rw [h1, h1]
  · have h1 : cancelEdit c = endEdit { c with scope := scope } := by simp [cancelEdit, h]
    rw [h1]
    exact cancelEdit_of_idle _ (endEdit_inEdit _)

/-- C5: on a cell with `inEdit` false both `endEdit` and `cancelEdit` return the cell
state unchanged (bound data, child elements, hidden class, begin-edit listeners and
`inEdit` included); hence from any state a second `endEdit` (or `cancelEdit`) in a row
changes nothing. -/
theorem endEdit_cancelEdit_noop_when_idle (c : Cell) :
    (c.inEdit = false → endEdit c = c ∧ cancelEdit c = c) ∧
    endEdit (endEdit c) = endEdit c ∧
    cancelEdit (cancelEdit c) = cancelEdit c :=
  ⟨fun h => ⟨endEdit_of_idle c h, cancelEdit_of_idle c h⟩, endEdit_idem c, cancelEdit_idem c⟩

/-- C5 at the freshly linked sample cell, which is idle. -/
theorem endEdit_cancelEdit_noop_when_idle_witness :
    (link sampleConfig).inEdit = false ∧
    endEdit (link sampleConfig) = link sampleConfig ∧
    cancelEdit (link sampleConfig) = link sampleConfig :=
  ⟨rfl, (endEdit_cancelEdit_noop_when_idle (link sampleConfig)).1 rfl⟩

/-! ## C10: `editColumnBuilder` -/

/-- The column-level values of `enableCellEdit` and `enableCellEditOnFocus` take
precedence whenever the column definition defines them. -/
theorem editColumnBuilder_enable_fields (cached : JsVal) (colDef : ColDef) (col : Col)
    (gridOptions : GridOptions) :
    (colDef.enableCellEdit ≠ .undefined →
      (editColumnBuilder cached colDef col gridOptions).enableCellEdit
        = colDef.enableCellEdit) ∧
    (colDef.enableCellEdit = .undefined →
      (editColumnBuilder cached colDef col gridOptions).enableCellEdit
        = gridOptions.enableCellEdit) ∧
    (colDef.enableCellEditOnFocus ≠ .undefined →
      (editColumnBuilder cached colDef col gridOptions).enableCellEditOnFocus
        = colDef.enableCellEditOnFocus) ∧
    (colDef.enableCellEditOnFocus = .undefined →
      (editColumnBuilder cached colDef col gridOptions).enableCellEditOnFocus
        = gridOptions.enableCellEditOnFocus) := by
  obtain ⟨a, b, t, d, e⟩ := colDef
  refine ⟨?_, ?_, ?_, ?_⟩ <;> intro h <;> simp only at h <;>
    cases a <;> cases e <;> simp_all [editColumnBuilder] <;> split <;> rfl

/-- C10, at the failing input: a column definition whose `cellEditableCondition` is the
literal `false` is built into a column whose `cellEditableCondition` is the string
`'true'`, not the column definition's value. -/
theorem editColumnBuilder_false_condition_lost :
    (editColumnBuilder (.str "<div></div>")
      { enableCellEdit := .bool true, cellEditableCondition := .bool false,
        editableCellTemplate := .undefined, editableCellDirective := .undefined,
        enableCellEditOnFocus := .undefined }
      { enableCellEdit := .undefined, cellEditableCondition := .undefined,
        editableCellTemplate := .undefined, editableCellDirective := .undefined,
        enableCellEditOnFocus := .undefined }
      { enableCellEdit := .undefined, cellEditableCondition := .undefined,
        enableCellEditOnFocus := .undefined }).cellEditableCondition = .str "true" ∧
    JsVal.str "true" ≠ JsVal.bool false := by
  constructor
  · rfl
  · intro h
    cases h

/-! ## C1: cancelling restores the bound value -/

theorem JsVal.lookup_setField_same (fs : List (String × JsVal)) (k : String) (x : JsVal) :
    (JsVal.setField fs k x).lookup k = some x := by
  induction fs with
  | nil => simp [JsVal.setField, List.lookup]
  | cons e fs ih =>
    obtain ⟨k', v⟩ := e
    by_cases hk : k' = k
    · simp [JsVal.setField, hk, List.lookup]
    · have hk' : (k == k') = false := by simpa using fun h => hk h.symm
      simp [JsVal.setField, hk, List.lookup, hk', ih]

theorem JsVal.prop_obj_setField (fs : List (String × JsVal)) (k : String) (x : JsVal) :
    JsVal.prop (.obj (JsVal.setField fs k x)) k = x := by
  simp [JsVal.prop, JsVal.lookup_setField_same]

theorem JsVal.getter_undefined (ks : List String) : JsVal.getter ks .undefined = .undefined := by
  cases ks <;> simp [JsVal.getter]

/-- Reading a path whose first step starts from an object reads the rest of the path
from that property. -/
theorem JsVal.getter_cons_obj (k : String) (ks : List String) (fs : List (String × JsVal)) :
    JsVal.getter (k :: ks) (.obj fs) = JsVal.getter ks (JsVal.prop (.obj fs) k) := by
  simp [JsVal.getter]

/-- A path that reads a string, a number or null runs through objects only. -/
theorem JsVal.assignable_of_isBoundValue (ks : List String) :
    ∀ (s : JsVal) (k : String), (JsVal.getter (k :: ks) s).isBoundValue = true →
      JsVal.assignable s k ks = true := by
  induction ks with
  | nil =>
    intro s k h
    cases s <;> simp_all [JsVal.getter, JsVal.prop, JsVal.isBoundValue, JsVal.assignable]
  | cons k2 ks ih =>
    intro s k h
    cases s with
    | obj fs =>
      rw [JsVal.getter_cons_obj] at h
      simp only [JsVal.assignable]
      split
      · exact ih _ _ h
      · rfl
    | _ => simp_all [JsVal.getter, JsVal.prop, JsVal.isBoundValue, JsVal.getter_undefined]

theorem JsVal.assignable_obj_nil (k : String) (ks : List String) :
    JsVal.assignable (.obj []) k ks = true := by
  cases ks <;> simp [JsVal.assignable, JsVal.prop, JsVal.truthy]

/-- The object `setter` descends into at the key `k` is assignable for the rest of the
path. -/
theorem JsVal.assignable_descend (fs : List (String × JsVal)) (k k2 : String)
    (ks : List String) (h : JsVal.assignable (.obj fs) k (k2 :: ks) = true) :
    JsVal.assignable
      (if (JsVal.prop (.obj fs) k).truthy then JsVal.prop (.obj fs) k else .obj []) k2 ks
      = true := by
  simp only [JsVal.assignable] at h
  by_cases ht : (JsVal.prop (.obj fs) k).truthy = true
  · simpa [ht] using h
  · simp [ht, JsVal.assignable_obj_nil]

theorem JsVal.setter_cons_obj (fs : List (String × JsVal)) (k k2 : String)
    (ks : List String) (x : JsVal) :
    JsVal.setter (.obj fs) k (k2 :: ks) x =
      match JsVal.setter
        (if (JsVal.prop (.obj fs) k).truthy then JsVal.prop (.obj fs) k else .obj [])
        k2 ks x with
      | some q => some (.obj (JsVal.setField fs k q))
      | none => none := by
  simp only [JsVal.setter, JsVal.assignProp]

/-- On an assignable path the setter does not raise, the value just assigned is the
value read, and the path stays assignable. -/
theorem JsVal.setter_of_assignable (ks : List String) :
    ∀ (s : JsVal) (k : String) (x : JsVal), JsVal.assignable s k ks = true →
      ∃ s1, JsVal.setter s k ks x = some s1 ∧ JsVal.getter (k :: ks) s1 = x ∧
        JsVal.assignable s1 k ks = true := by
  induction ks with
  | nil =>
    intro s k x h
    cases s with
    | obj fs =>
      refine ⟨.obj (JsVal.setField fs k x), rfl, ?_, by simp [JsVal.assignable]⟩
      rw [JsVal.getter_cons_obj, JsVal.prop_obj_setField]
      rfl
    | _ => simp [JsVal.assignable] at h
  | cons k2 ks ih =>
    intro s k x h
    cases s with
    | obj fs =>
      obtain ⟨q, hq, hget, hass⟩ := ih _ _ x (JsVal.assignable_descend fs k k2 ks h)
      refine ⟨.obj (JsVal.setField fs k q), ?_, ?_, ?_⟩
      · rw [JsVal.setter_cons_obj, hq]
      · rw [JsVal.getter_cons_obj, JsVal.prop_obj_setField]
        exact hget
      · simp only [JsVal.assignable]
        rw [JsVal.prop_obj_setField, hass]
        simp
    | _ => simp [JsVal.assignable] at h

/-- Where the path is not assignable the setter raises. -/
theorem JsVal.setter_of_not_assignable (ks : List String) :
    ∀ (s : JsVal) (k : String) (x : JsVal), JsVal.assignable s k ks = false →
      JsVal.setter s k ks x = none := by
  induction ks with
  | nil =>
    intro s k x h
    cases s <;> simp_all [JsVal.assignable, JsVal.setter, JsVal.assignProp]
  | cons k2 ks ih =>
    intro s k x h
    cases s with
    | obj fs =>
      simp only [JsVal.assignable] at h
      by_cases ht : (JsVal.prop (.obj fs) k).truthy = true
      · simp only [ht, if_true] at h
        rw [JsVal.setter_cons_obj]
        simp only [ht, if_true, ih _ _ x h]
      · simp [ht] at h
    | _ =>
      simp only [JsVal.setter, JsVal.assignProp]
      split <;> rfl

theorem editorWrite_fields (v : JsVal) (c : Cell) :
    (editorWrite v c).qualifiedColField = c.qualifiedColField ∧
    (editorWrite v c).inEdit = c.inEdit ∧
    (editorWrite v c).cellModel = c.cellModel ∧
    (editorWrite v c).origCellValue = c.origCellValue :=
  ⟨rfl, rfl, rfl, rfl⟩

/-- Editor writes keep the path assignable and leave the closure variables alone. -/
theorem foldl_editorWrite_fields (ws : List JsVal) :
    ∀ c : Cell,
      JsVal.assignable c.scope c.qualifiedColField.first c.qualifiedColField.rest = true →
      JsVal.assignable (ws.foldl (fun c v => editorWrite v c) c).scope
          c.qualifiedColField.first c.qualifiedColField.rest = true ∧
      (ws.foldl (fun c v => editorWrite v c) c).qualifiedColField = c.qualifiedColField ∧
      (ws.foldl (fun c v => editorWrite v c) c).inEdit = c.inEdit ∧
      (ws.foldl (fun c v => editorWrite v c) c).cellModel = c.cellModel ∧
      (ws.foldl (fun c v => editorWrite v c) c).origCellValue = c.origCellValue ∧
      (ws.foldl (fun c v => editorWrite v c) c).subs = c.subs ∧
      (ws.foldl (fun c v => editorWrite v c) c).sessions = c.sessions := by
  induction ws with
  | nil => intro c h; exact ⟨h, rfl, rfl, rfl, rfl, rfl, rfl⟩
  | cons w ws ih =>
    intro c h
    obtain ⟨s1, hs1, -, ha1⟩ := JsVal.setter_of_assignable _ c.scope _ w h
    have h1 : JsVal.assignable (editorWrite w c).scope
        (editorWrite w c).qualifiedColField.first (editorWrite w c).qualifiedColField.rest
        = true := by
      simp only [editorWrite, FieldPath.assign, hs1, Option.getD_some]
      exact ha1
    simpa [List.foldl] using ih (editorWrite w c) h1

theorem beginEdit_fields (c : Cell) :
    (beginEdit c).scope = c.scope ∧
    (beginEdit c).qualifiedColField = c.qualifiedColField ∧
    (beginEdit c).inEdit = true ∧
    (beginEdit c).cellModel = some c.qualifiedColField ∧
    (beginEdit c).origCellValue = c.qualifiedColField.read c.scope :=
  ⟨rfl, rfl, rfl, rfl, rfl⟩

/-- C1: whatever the cell state, when the value read through the field path is a string,
a number or null, then after `beginEdit`, any sequence of editor writes to the bound
field, and `cancelEdit`, the value read through the field path is the value read before
`beginEdit`. -/
theorem cancelEdit_restores_bound_value (c : Cell) (writes : List JsVal)
    (h : (c.qualifiedColField.read c.scope).isBoundValue = true) :
    c.qualifiedColField.read
        (cancelEdit (writes.foldl (fun c v => editorWrite v c) (beginEdit c))).scope
      = c.qualifiedColField.read c.scope := by
  obtain ⟨hs, hq, hin, hm, ho⟩ := beginEdit_fields c
  have ha : JsVal.assignable (beginEdit c).scope (beginEdit c).qualifiedColField.first
      (beginEdit c).qualifiedColField.rest = true := by
    rw [hs, hq]
    exact JsVal.assignable_of_isBoundValue _ _ _ h
  obtain ⟨wa, wq, win, wm, wo, -, -⟩ := foldl_editorWrite_fields writes (beginEdit c) ha
  rw [hq] at wa wq
  rw [hin] at win
  rw [hm] at wm
  rw [ho] at wo
  obtain ⟨s1, hs1, hget, -⟩ := JsVal.setter_of_assignable _ _ _
    (c.qualifiedColField.read c.scope) wa
  have hc : cancelEdit (writes.foldl (fun c v => editorWrite v c) (beginEdit c)) =
      endEdit { (writes.foldl (fun c v => editorWrite v c) (beginEdit c)) with
        scope := s1 } := by
    simp [cancelEdit, cancelEditCall, win, wm, wo, FieldPath.assign, hs1]
  rw [hc, endEdit_scope]
  exact hget

/-- C1 at the sample cell bound to `row.entity.name`, with two editor writes before the
cancel. -/
theorem cancelEdit_restores_bound_value_witness :
    ((link sampleConfig).qualifiedColField.read (link sampleConfig).scope).isBoundValue = true ∧
    (link sampleConfig).qualifiedColField.read
        (cancelEdit ([JsVal.str "Robert", JsVal.num 5].foldl (fun c v => editorWrite v c)
          (beginEdit (link sampleConfig)))).scope
      = (link sampleConfig).qualifiedColField.read (link sampleConfig).scope :=
  ⟨by decide, cancelEdit_restores_bound_value (link sampleConfig) _ (by decide)⟩

/-! ## C4: the three subscriptions of an edit session -/

theorem endEdit_subs (c : Cell) : (endEdit c).subs = c.subs := by
  unfold endEdit
  split <;> simp [registerBeginEditEvents]

/-- A handler that returns leaves the cell idle and the registrations as they were. -/
theorem handler_some (s : Signal) (c c1 : Cell) (h : s.handler c = some c1) :
    c1.subs = c.subs ∧ c1.inEdit = false := by
  cases s with
  | gridScroll =>
    cases h
    exact ⟨endEdit_subs c, endEdit_inEdit c⟩
  | endCellEdit =>
    cases h
    exact ⟨endEdit_subs c, endEdit_inEdit c⟩
  | cancelCellEdit =>
    have h : cancelEditCall c = some c1 := h
    rcases cancelEditCall_cases c with e | ⟨hin, e⟩ | ⟨m, scope, -, -, -, e⟩
    · rw [e] at h; cases h
    · rw [e] at h; cases h
      exact ⟨rfl, hin⟩
    · rw [e] at h; cases h
      exact ⟨endEdit_subs _, endEdit_inEdit _⟩

theorem cancelEdit_subs (c : Cell) : (cancelEdit c).subs = c.subs := by
  unfold cancelEdit
  cases h : cancelEditCall c with
  | none => rfl
  | some c1 => exact (handler_some .cancelCellEdit c c1 h).1

theorem handler_of_idle (s : Signal) (c : Cell) (h : c.inEdit = false) :
    s.handler c = some c := by
  cases s
  · exact congrArg some (endEdit_of_idle c h)
  · exact congrArg some (endEdit_of_idle c h)
  · exact cancelEditCall_of_idle c h

theorem runSub_of_idle (c : Cell) (sub : Sub) (h : c.inEdit = false) :
    runSub c sub = { c with subs := c.subs.erase sub } := by
  unfold runSub
  split
  · simp [handler_of_idle _ c h]
  · rename_i hm
    rw [List.erase_of_not_mem hm]

theorem foldl_runSub_of_idle (l : List Sub) :
    ∀ c : Cell, c.inEdit = false →
      l.foldl runSub c = { c with subs := l.foldl List.erase c.subs } := by
  induction l with
  | nil => intro c _; rfl
  | cons x l ih =>
    intro c h
    rw [List.foldl_cons, runSub_of_idle c x h, ih _ (by simpa using h)]
    rfl

/-- Erasing, one after the other, the elements of `l` that satisfy `p` leaves the
elements that do not. -/
theorem foldl_erase_filter (p : Sub → Bool) (l : List Sub) :
    ∀ pre : List Sub, (∀ x ∈ pre, p x = false) →
      (l.filter p).foldl List.erase (pre ++ l) = pre ++ l.filter (fun x => !p x) := by
  induction l with
  | nil => intro pre _; simp
  | cons a l ih =>
    intro pre hpre
    by_cases ha : p a = true
    · have hnot : a ∉ pre := fun hm => by
        have := hpre a hm
        simp [ha] at this
      rw [List.filter_cons_of_pos ha, List.foldl_cons, List.erase_append_right _ hnot,
        List.erase_cons_head, ih pre hpre]
      simp [ha]
    · have ha' : p a = false := by simpa using ha
      rw [List.filter_cons_of_neg ha]
      have := ih (pre ++ [a]) (by
        intro x hx
        rcases List.mem_append.1 hx with hx | hx
        · exact hpre x hx
        · simpa [List.mem_singleton.1 hx] using ha')
      simp only [List.append_assoc, List.singleton_append] at this
      rw [this]
      simp [ha']

theorem foldl_erase_filter_all (s : Signal) (subs : List Sub) :
    (subs.filter (fun sub => decide (sub.signal = s))).foldl List.erase subs
      = subs.filter (fun sub => !decide (sub.signal = s)) := by
  simpa using foldl_erase_filter (fun sub => decide (sub.signal = s)) subs [] (by simp)

/-- On an idle cell a signal only removes the registrations for it. -/
theorem fire_of_idle (s : Signal) (c : Cell) (h : c.inEdit = false) :
    fire s c = { c with subs := c.subs.filter (fun sub => !decide (sub.signal = s)) } := by
  unfold fire
  rw [foldl_runSub_of_idle _ c h, foldl_erase_filter_all]

/-- A signal whose handler returns with `c1`, on a cell that holds a registration for
it: the first registration to run leaves `c1`, idle, and the others only deregister
themselves. -/
theorem fire_of_handler (s : Signal) (c c1 : Cell) (h : s.handler c = some c1)
    (sub : Sub) (hm : sub ∈ c.subs) (hs : sub.signal = s) :
    fire s c = { c1 with subs := c.subs.filter (fun sub => !decide (sub.signal = s)) } := by
  obtain ⟨h1, h2⟩ := handler_some s c c1 h
  have hall := foldl_erase_filter_all s c.subs
  unfold fire
  have hmem : sub ∈ c.subs.filter (fun sub => decide (sub.signal = s)) := by
    simp [List.mem_filter, hm, hs]
  cases hl : c.subs.filter (fun sub => decide (sub.signal = s)) with
  | nil => simp [hl] at hmem
  | cons x l =>
    have hx : x ∈ c.subs.filter (fun sub => decide (sub.signal = s)) := by simp [hl]
    obtain ⟨hx1, hx2⟩ := List.mem_filter.1 hx
    have hx2 : x.signal = s := by simpa using hx2
    have hrun : runSub c x = { c1 with subs := c1.subs.erase x } := by
      unfold runSub
      rw [if_pos hx1, hx2, h]
    rw [hl, List.foldl_cons] at hall
    rw [List.foldl_cons, hrun, foldl_runSub_of_idle l _ (by simpa using h2)]
    simp only [h1, hall]

/-- A signal whose handler raises changes nothing: every registration for it is left
in place. -/
theorem fire_of_raise (s : Signal) (c : Cell) (h : s.handler c = none) : fire s c = c := by
  unfold fire
  have hall : ∀ l : List Sub, (∀ x ∈ l, x.signal = s) → l.foldl runSub c = c := by
    intro l
    induction l with
    | nil => intro _; rfl
    | cons x l ih =>
      intro hx
      have hrun : runSub c x = c := by
        unfold runSub
        split
        · rw [hx x (List.mem_cons_self _ _), h]
        · rfl
      rw [List.foldl_cons, hrun]
      exact ih (fun y hy => hx y (List.mem_cons_of_mem _ hy))
  exact hall _ (fun x hx => by simpa using (List.mem_filter.1 hx).2)

theorem beginEdit_subs (c : Cell) :
    (beginEdit c).subs = c.subs ++ [⟨c.sessions, .gridScroll⟩, ⟨c.sessions, .endCellEdit⟩,
      ⟨c.sessions, .cancelCellEdit⟩] := rfl

theorem mem_beginEdit_subs (c : Cell) (s : Signal) : ⟨c.sessions, s⟩ ∈ (beginEdit c).subs := by
  rw [beginEdit_subs]
  cases s <;> simp

/-- C4, at a concrete cell: after the end-cell-edit subscription of a session has fired,
the scroll and cancel subscriptions of that session are still registered, and a later
scroll signal runs the scroll handler of that session (which then deregisters itself). -/
theorem other_subscriptions_stay_registered :
    (fire .endCellEdit (beginEdit (link sampleConfig))).subs
      = [⟨0, .gridScroll⟩, ⟨0, .cancelCellEdit⟩] ∧
    (fire .gridScroll (fire .endCellEdit (beginEdit (link sampleConfig)))).subs
      = [⟨0, .cancelCellEdit⟩] := by
  decide

theorem sessionState_fields (c : Cell) (writes : List JsVal)
    (ha : JsVal.assignable c.scope c.qualifiedColField.first c.qualifiedColField.rest = true) :
    JsVal.assignable (sessionState c writes).scope c.qualifiedColField.first
        c.qualifiedColField.rest = true ∧
    (sessionState c writes).inEdit = true ∧
    (sessionState c writes).cellModel = some c.qualifiedColField ∧
    (sessionState c writes).subs = (beginEdit c).subs := by
  obtain ⟨wa, -, win, wm, -, ws, -⟩ := foldl_editorWrite_fields writes (beginEdit c) ha
  exact ⟨wa, win, wm, ws⟩

theorem foldl_editorWrite_subs (ws : List JsVal) :
    ∀ c : Cell, (ws.foldl (fun c v => editorWrite v c) c).subs = c.subs ∧
      (ws.foldl (fun c v => editorWrite v c) c).inEdit = c.inEdit := by
  induction ws with
  | nil => intro c; exact ⟨rfl, rfl⟩
  | cons w ws ih => intro c; exact ih (editorWrite w c)

theorem sessionState_subs (c : Cell) (writes : List JsVal) :
    (sessionState c writes).subs = (beginEdit c).subs ∧
    (sessionState c writes).inEdit = true :=
  foldl_editorWrite_subs writes (beginEdit c)

/-- In the middle of a session every handler returns, the cancel handler provided the
field path runs through objects only. -/
theorem handler_sessionState (c : Cell) (writes : List JsVal) (s : Signal)
    (hok : s = .cancelCellEdit →
      JsVal.assignable c.scope c.qualifiedColField.first c.qualifiedColField.rest = true) :
    ∃ c1, s.handler (sessionState c writes) = some c1 := by
  cases s with
  | gridScroll => exact ⟨_, rfl⟩
  | endCellEdit => exact ⟨_, rfl⟩
  | cancelCellEdit =>
    obtain ⟨wa, win, wm, -⟩ := sessionState_fields c writes (hok rfl)
    obtain ⟨s1, hs1, -, -⟩ := JsVal.setter_of_assignable _ _ _
      (sessionState c writes).origCellValue wa
    exact ⟨_, by
      show cancelEditCall (sessionState c writes) = _
      simp only [cancelEditCall, win, wm, FieldPath.assign, hs1]
      rfl⟩

/-- C4, amended: in an edit session (after `beginEdit` and any editor writes), once a
signal `s` has fired and its handler has returned (the scroll and end handlers always do,
the cancel handler does when the field path runs through objects only, so that the
rollback assignment does not raise), the cell is idle, exactly the registrations for `s`
are gone (the session's own one among them), and the session's registrations for the
other two signals are still there; a later signal that reaches the cell while it is
still idle only removes the registrations it runs: the rest of the cell state (bound
data, child elements, listeners, `inEdit`) is as it was. -/
theorem fire_after_beginEdit (c : Cell) (writes : List JsVal) (s : Signal)
    (hok : s = .cancelCellEdit →
      JsVal.assignable c.scope c.qualifiedColField.first c.qualifiedColField.rest = true) :
    (fire s (sessionState c writes)).inEdit = false ∧
    (fire s (sessionState c writes)).subs
      = (beginEdit c).subs.filter (fun sub => !decide (sub.signal = s)) ∧
    ⟨c.sessions, s⟩ ∉ (fire s (sessionState c writes)).subs ∧
    (∀ s2, s2 ≠ s → ⟨c.sessions, s2⟩ ∈ (fire s (sessionState c writes)).subs) ∧
    (∀ s2, fire s2 (fire s (sessionState c writes)) =
      { fire s (sessionState c writes) with
        subs := (fire s (sessionState c writes)).subs.filter
          (fun sub => !decide (sub.signal = s2)) }) := by
  obtain ⟨c1, h1⟩ := handler_sessionState c writes s hok
  obtain ⟨hsubs, -⟩ := sessionState_subs c writes
  have hf := fire_of_handler s (sessionState c writes) c1 h1 ⟨c.sessions, s⟩
    (by rw [hsubs]; exact mem_beginEdit_subs c s) rfl
  have hidle : (fire s (sessionState c writes)).inEdit = false := by
    rw [hf]; exact (handler_some s _ c1 h1).2
  have hs : (fire s (sessionState c writes)).subs
      = (beginEdit c).subs.filter (fun sub => !decide (sub.signal = s)) := by
    rw [hf, hsubs]
  refine ⟨hidle, hs, ?_, ?_, fun s2 => fire_of_idle s2 _ hidle⟩
  · rw [hs]
    simp [List.mem_filter]
  · intro s2 hne
    rw [hs]
    simp [List.mem_filter, mem_beginEdit_subs c s2, hne]

/-- C4 as amended, at the sample cell, for the cancel signal after an editor write: the
path `row.entity.name` runs through objects, and afterwards the session's scroll
subscription is still registered. -/
theorem fire_after_beginEdit_witness :
    (Signal.cancelCellEdit = .cancelCellEdit →
      JsVal.assignable (link sampleConfig).scope (link sampleConfig).qualifiedColField.first
        (link sampleConfig).qualifiedColField.rest = true) ∧
    Signal.gridScroll ≠ Signal.cancelCellEdit ∧
    (⟨(link sampleConfig).sessions, .gridScroll⟩ : Sub)
      ∈ (fire .cancelCellEdit (sessionState (link sampleConfig) [.str "Robert"])).subs :=
  ⟨fun _ => by decide, by decide,
    (fire_after_beginEdit (link sampleConfig) [.str "Robert"] .cancelCellEdit
      (fun _ => by decide)).2.2.2.1 .gridScroll (by decide)⟩

/-- Where a truthy primitive lies on the field path (`row.entity` is the number 5), the
rollback assignment raises: the cancel signal leaves the cell editing, with all three
subscriptions of the session registered. -/
theorem cancel_raises_on_primitive_path :
    (fire .cancelCellEdit (beginEdit (link primitiveOnPathConfig))).inEdit = true ∧
    (fire .cancelCellEdit (beginEdit (link primitiveOnPathConfig))).subs
      = [⟨0, .gridScroll⟩, ⟨0, .endCellEdit⟩, ⟨0, .cancelCellEdit⟩] := by
  decide

/-- Once a new session has begun, a subscription left over from the session before is
not idle any more: session 0 was ended by the end-cell-edit signal, session 1 has begun
and its editor has written "Robert"; on the next cancel signal the cancel handler of
session 0 runs first, rolls the value back and ends session 1. -/
theorem stale_subscription_ends_next_session :
    (runSub (sessionState (fire .endCellEdit (beginEdit (link sampleConfig))) [.str "Robert"])
      ⟨0, .cancelCellEdit⟩).inEdit = false ∧
    (runSub (sessionState (fire .endCellEdit (beginEdit (link sampleConfig))) [.str "Robert"])
      ⟨0, .cancelCellEdit⟩).subs
      = [⟨0, .gridScroll⟩, ⟨1, .gridScroll⟩, ⟨1, .endCellEdit⟩, ⟨1, .cancelCellEdit⟩] ∧
    (fire .cancelCellEdit
      (sessionState (fire .endCellEdit (beginEdit (link sampleConfig))) [.str "Robert"])).subs
      = [⟨0, .gridScroll⟩, ⟨1, .gridScroll⟩, ⟨1, .endCellEdit⟩] := by
  decide

/-! ## C9: begin-edit listeners and edit sessions -/

theorem link_inv (cfg : CellConfig) (h : cfg.enableCellEdit = true) : (link cfg).Inv := by
  simp [link, h, Cell.Inv, registerBeginEditEvents, Cell.on]

theorem link_enableCellEditOnFocus (cfg : CellConfig) :
    (link cfg).enableCellEditOnFocus = cfg.enableCellEditOnFocus := by
  unfold link
  split <;> rfl

theorem beginEdit_inv (c : Cell) (hinv : c.Inv) (h : c.inEdit = false) : (beginEdit c).Inv := by
  obtain ⟨h1, h2, h3, h4⟩ := hinv.1 h
  refine ⟨fun hf => by simp [beginEdit, cancelBeginEditEvents] at hf, fun _ => ?_⟩
  refine ⟨?_, ?_, ?_, ?_⟩
  · simp [beginEdit, cancelBeginEditEvents, Cell.off, h1]
  · simp [beginEdit, cancelBeginEditEvents, Cell.off, h2]
  · cases hf : c.enableCellEditOnFocus <;>
      simp [beginEdit, cancelBeginEditEvents, Cell.off, h3, hf]
  · exact ⟨c.editableCellTemplate.replace "editable_cell_directive" c.editableCellDirective,
      by simp [beginEdit, cancelBeginEditEvents, h4, setHiddenFirst]⟩

theorem endEdit_inv (c : Cell) (hinv : c.Inv) : (endEdit c).Inv := by
  cases h : c.inEdit with
  | false => rw [endEdit_of_idle c h]; exact hinv
  | true =>
    obtain ⟨h1, h2, h3, html, h4⟩ := hinv.2 h
    refine ⟨fun _ => ?_, fun hf => by simp [endEdit_inEdit] at hf⟩
    cases hf : c.enableCellEditOnFocus <;>
      simp [endEdit, h, registerBeginEditEvents, Cell.on, h1, h2, h3, h4, removeSecond,
        setHiddenFirst, hf]

theorem handler_inv (s : Signal) (c c1 : Cell) (h : s.handler c = some c1) (hinv : c.Inv) :
    c1.Inv := by
  cases s with
  | gridScroll => cases h; exact endEdit_inv c hinv
  | endCellEdit => cases h; exact endEdit_inv c hinv
  | cancelCellEdit =>
    have h : cancelEditCall c = some c1 := h
    rcases cancelEditCall_cases c with e | ⟨-, e⟩ | ⟨m, scope, -, -, -, e⟩
    · rw [e] at h; cases h
    · rw [e] at h; cases h
      exact hinv
    · rw [e] at h; cases h
      exact endEdit_inv _ hinv

theorem cancelEdit_inv (c : Cell) (hinv : c.Inv) : (cancelEdit c).Inv := by
  unfold cancelEdit
  cases h : cancelEditCall c with
  | none => exact hinv
  | some c1 => exact handler_inv .cancelCellEdit c c1 h hinv

theorem runSub_inv (c : Cell) (sub : Sub) (hinv : c.Inv) : (runSub c sub).Inv := by
  unfold runSub
  split
  · cases h : sub.signal.handler c with
    | none => exact hinv
    | some c1 => exact handler_inv _ c c1 h hinv
  · exact hinv

theorem foldl_runSub_inv (l : List Sub) : ∀ c : Cell, c.Inv → (l.foldl runSub c).Inv := by
  induction l with
  | nil => intro c h; exact h
  | cons x l ih => intro c h; exact ih _ (runSub_inv c x h)

theorem fire_inv (s : Signal) (c : Cell) (hinv : c.Inv) : (fire s c).Inv :=
  foldl_runSub_inv _ c hinv

/-- On a state that satisfies the invariant a pointer, keyboard or focus event runs
`beginEdit` at most once, and only from the idle state. -/
theorem step_trigger (keymap : Keymap) (c : Cell) (hinv : c.Inv) (e : Event)
    (he : e.isBeginTrigger = true) :
    step keymap c e = c ∨ (c.inEdit = false ∧ step keymap c e = beginEdit c) := by
  cases h : c.inEdit with
  | true =>
    obtain ⟨h1, h2, h3, -⟩ := hinv.2 h
    left
    cases e <;> simp_all [step, Event.isBeginTrigger]
  | false =>
    obtain ⟨h1, h2, h3, -⟩ := hinv.1 h
    cases e with
    | dblclick => right; simp [step, h1]
    | keydown evt =>
      by_cases hk : isStartEditKey keymap evt = true
      · right; simp [step, h2, beginEditKeyDown, hk]
      · left; simp [step, h2, beginEditKeyDown, hk]
    | focus =>
      cases hf : c.enableCellEditOnFocus
      · left; simp [step, h3, hf]
      · right; simp [step, h3, hf, beginEditFocus]
    | signal s => simp [Event.isBeginTrigger] at he
    | editorWrite v => simp [Event.isBeginTrigger] at he

theorem step_inv (keymap : Keymap) (c : Cell) (hinv : c.Inv) (e : Event) :
    (step keymap c e).Inv := by
  cases he : e.isBeginTrigger with
  | true =>
    rcases step_trigger keymap c hinv e he with h | ⟨hi, h⟩
    · rw [h]; exact hinv
    · rw [h]; exact beginEdit_inv c hinv hi
  | false =>
    cases e with
    | signal s => exact fire_inv s c hinv
    | editorWrite v => exact hinv
    | _ => simp [Event.isBeginTrigger] at he

theorem run_inv (keymap : Keymap) (evs : List Event) :
    ∀ c : Cell, c.Inv → (run keymap c evs).Inv := by
  induction evs with
  | nil => intro c h; exact h
  | cons e evs ih => intro c h; exact ih _ (step_inv keymap c h e)

theorem endEdit_enableCellEditOnFocus (c : Cell) :
    (endEdit c).enableCellEditOnFocus = c.enableCellEditOnFocus := by
  unfold endEdit
  split <;> simp [registerBeginEditEvents]

theorem handler_enableCellEditOnFocus (s : Signal) (c c1 : Cell)
    (h : s.handler c = some c1) : c1.enableCellEditOnFocus = c.enableCellEditOnFocus := by
  cases s with
  | gridScroll => cases h; exact endEdit_enableCellEditOnFocus c
  | endCellEdit => cases h; exact endEdit_enableCellEditOnFocus c
  | cancelCellEdit =>
    have h : cancelEditCall c = some c1 := h
    rcases cancelEditCall_cases c with e | ⟨-, e⟩ | ⟨m, scope, -, -, -, e⟩
    · rw [e] at h; cases h
    · rw [e] at h; cases h
      rfl
    · rw [e] at h; cases h
      exact endEdit_enableCellEditOnFocus _

theorem runSub_enableCellEditOnFocus (c : Cell) (sub : Sub) :
    (runSub c sub).enableCellEditOnFocus = c.enableCellEditOnFocus := by
  unfold runSub
  split
  · cases h : sub.signal.handler c with
    | none => rfl
    | some c1 => exact handler_enableCellEditOnFocus _ c c1 h
  · rfl

theorem foldl_runSub_enableCellEditOnFocus (l : List Sub) :
    ∀ c : Cell, (l.foldl runSub c).enableCellEditOnFocus = c.enableCellEditOnFocus := by
  induction l with
  | nil => intro c; rfl
  | cons x l ih => intro c; rw [List.foldl_cons, ih, runSub_enableCellEditOnFocus]

theorem iterate_enableCellEditOnFocus (f : Cell → Cell)
    (hf : ∀ c, (f c).enableCellEditOnFocus = c.enableCellEditOnFocus) (n : Nat) :
    ∀ c : Cell, (Nat.iterate f n c).enableCellEditOnFocus = c.enableCellEditOnFocus := by
  induction n with
  | zero => intro c; rfl
  | succ n ih => intro c; rw [Function.iterate_succ_apply, ih, hf]

theorem step_enableCellEditOnFocus (keymap : Keymap) (c : Cell) (e : Event) :
    (step keymap c e).enableCellEditOnFocus = c.enableCellEditOnFocus := by
  cases e with
  | dblclick => exact iterate_enableCellEditOnFocus beginEdit (fun _ => rfl) _ c
  | keydown evt =>
    refine iterate_enableCellEditOnFocus _ (fun c => ?_) _ c
    unfold beginEditKeyDown
    split <;> rfl
  | focus => exact iterate_enableCellEditOnFocus beginEditFocus (fun _ => rfl) _ c
  | signal s => exact foldl_runSub_enableCellEditOnFocus _ c
  | editorWrite v => rfl

theorem run_enableCellEditOnFocus (keymap : Keymap) (evs : List Event) :
    ∀ c : Cell, (run keymap c evs).enableCellEditOnFocus = c.enableCellEditOnFocus := by
  induction evs with
  | nil => intro c; rfl
  | cons e evs ih =>
    intro c
    show (run keymap (step keymap c e) evs).enableCellEditOnFocus = _
    rw [ih, step_enableCellEditOnFocus]

/-- C9: for an edit-enabled cell and any sequence of pointer, keyboard, focus, scroll,
end, cancel (and editor-write) events, the state reached has the begin-edit listeners
(dblclick, keydown and, when enabled, focus) attached exactly once and no editor element
when idle, and none attached and exactly one editor element when editing; a pointer,
keyboard or focus event then either changes nothing or, from the idle state only, runs
`beginEdit` once. -/
theorem begin_edit_listeners_follow_state (keymap : Keymap) (cfg : CellConfig)
    (h : cfg.enableCellEdit = true) (evs : List Event) :
    ((run keymap (link cfg) evs).inEdit = false →
      (run keymap (link cfg) evs).dblclick = 1 ∧
      (run keymap (link cfg) evs).keydown = 1 ∧
      (run keymap (link cfg) evs).focus = (if cfg.enableCellEditOnFocus then 1 else 0) ∧
      (run keymap (link cfg) evs).editorCount = 0) ∧
    ((run keymap (link cfg) evs).inEdit = true →
      (run keymap (link cfg) evs).dblclick = 0 ∧
      (run keymap (link cfg) evs).keydown = 0 ∧
      (run keymap (link cfg) evs).focus = 0 ∧
      (run keymap (link cfg) evs).editorCount = 1 ∧
      ∀ e : Event, e.isBeginTrigger = true →
        step keymap (run keymap (link cfg) evs) e = run keymap (link cfg) evs) ∧
    (∀ e : Event, e.isBeginTrigger = true →
      step keymap (run keymap (link cfg) evs) e = run keymap (link cfg) evs ∨
      ((run keymap (link cfg) evs).inEdit = false ∧
        step keymap (run keymap (link cfg) evs) e
          = beginEdit (run keymap (link cfg) evs))) := by
  have hinv := run_inv keymap evs (link cfg) (link_inv cfg h)
  have hfoc := run_enableCellEditOnFocus keymap evs (link cfg)
  rw [link_enableCellEditOnFocus] at hfoc
  refine ⟨fun hi => ?_, fun he => ?_, fun e he => step_trigger keymap _ hinv e he⟩
  · obtain ⟨h1, h2, h3, h4⟩ := hinv.1 hi
    rw [hfoc] at h3
    exact ⟨h1, h2, h3, by simp [Cell.editorCount, h4]⟩
  · obtain ⟨h1, h2, h3, html, h4⟩ := hinv.2 he
    refine ⟨h1, h2, h3, by simp [Cell.editorCount, h4], fun e htr => ?_⟩
    rcases step_trigger keymap _ hinv e htr with hs | ⟨hi, -⟩
    · exact hs
    · rw [he] at hi
      cases hi

/-- C9 at the sample cell after a double click, an end signal and the key `a`: the cell
is editing again. -/
theorem begin_edit_listeners_follow_state_witness :
    sampleConfig.enableCellEdit = true ∧
    ((run sampleKeymap (link sampleConfig)
        [.dblclick, .signal .endCellEdit, .keydown ⟨65, false⟩]).inEdit = true →
      (run sampleKeymap (link sampleConfig)
        [.dblclick, .signal .endCellEdit, .keydown ⟨65, false⟩]).dblclick = 0 ∧
      (run sampleKeymap (link sampleConfig)
        [.dblclick, .signal .endCellEdit, .keydown ⟨65, false⟩]).keydown = 0 ∧
      (run sampleKeymap (link sampleConfig)
        [.dblclick, .signal .endCellEdit, .keydown ⟨65, false⟩]).focus = 0 ∧
      (run sampleKeymap (link sampleConfig)
        [.dblclick, .signal .endCellEdit, .keydown ⟨65, false⟩]).editorCount = 1 ∧
      ∀ e : Event, e.isBeginTrigger = true →
        step sampleKeymap (run sampleKeymap (link sampleConfig)
          [.dblclick, .signal .endCellEdit, .keydown ⟨65, false⟩]) e
          = run sampleKeymap (link sampleConfig)
            [.dblclick, .signal .endCellEdit, .keydown ⟨65, false⟩]) ∧
    (run sampleKeymap (link sampleConfig)
        [.dblclick, .signal .endCellEdit, .keydown ⟨65, false⟩]).inEdit = true :=
  ⟨rfl, (begin_edit_listeners_follow_state sampleKeymap sampleConfig rfl _).2.1, by decide⟩

/-! ## The cleanup service: properties of objects -/

theorem cleanupObject_allNull (o : Obj) : (cleanupObject o).AllNull := by
  intro kv h
  simp only [cleanupObject, List.mem_map] at h
  obtain ⟨a, -, rfl⟩ := h
  rfl

theorem cleanupObject_of_allNull (o : Obj) (h : o.AllNull) : cleanupObject o = o := by
  induction o with
  | nil => rfl
  | cons kv o ih =>
    have h1 : kv.2 = Val.null := h kv (List.mem_cons_self _ _)
    have h2 : Obj.AllNull o := fun x hx => h x (List.mem_cons_of_mem _ hx)
    obtain ⟨k, v⟩ := kv
    simp only at h1
    subst h1
    show (k, Val.null) :: cleanupObject o = _
    rw [ih h2]

theorem Obj.set_null_allNull (o : Obj) (k : String) (h : o.AllNull) :
    (o.set k Val.null).AllNull := by
  induction o with
  | nil =>
    intro kv hkv
    simp only [Obj.set, List.mem_singleton] at hkv
    subst hkv
    rfl
  | cons e o ih =>
    obtain ⟨k', v⟩ := e
    have h2 : Obj.AllNull o := fun x hx => h x (List.mem_cons_of_mem _ hx)
    intro kv hkv
    simp only [Obj.set] at hkv
    split at hkv
    · rcases List.mem_cons.1 hkv with rfl | hm
      · rfl
      · exact h2 kv hm
    · rcases List.mem_cons.1 hkv with rfl | hm
      · exact h (k', v) (List.mem_cons_self _ _)
      · exact ih h2 kv hm

theorem Obj.lookup_set_same (o : Obj) (k : String) (x : Val) :
    (o.set k x).lookup k = some x := by
  induction o with
  | nil => simp [Obj.set, List.lookup]
  | cons e o ih =>
    obtain ⟨k', v⟩ := e
    by_cases hk : k' = k
    · simp [Obj.set, hk, List.lookup]
    · have hk' : (k == k') = false := by simpa using fun h => hk h.symm
      simp [Obj.set, hk, List.lookup, hk', ih]

theorem Obj.lookup_set_ne (o : Obj) (k k2 : String) (x : Val) (hne : k2 ≠ k) :
    (o.set k x).lookup k2 = o.lookup k2 := by
  induction o with
  | nil =>
    have : (k2 == k) = false := by simpa using hne
    simp [Obj.set, List.lookup, this]
  | cons e o ih =>
    obtain ⟨k', v⟩ := e
    by_cases hk : k' = k
    · subst hk
      have : (k2 == k') = false := by simpa using hne
      simp [Obj.set, List.lookup, this]
    · by_cases h2 : k2 = k'
      · subst h2
        simp [Obj.set, hk, List.lookup]
      · have : (k2 == k') = false := by simpa using h2
        simp [Obj.set, hk, List.lookup, this, ih]

theorem Obj.set_of_lookup (o : Obj) (k : String) (x : Val) (h : o.lookup k = some x) :
    o.set k x = o := by
  induction o with
  | nil => simp [List.lookup] at h
  | cons e o ih =>
    obtain ⟨k', v⟩ := e
    by_cases hk : k' = k
    · subst hk
      simp [List.lookup] at h
      simp [Obj.set, h]
    · have hk' : (k == k') = false := by simpa using fun h => hk h.symm
      simp only [List.lookup, hk'] at h
      simp [Obj.set, hk, ih h]

theorem Obj.lookup_of_allNull (o : Obj) (k : String) (h : o.AllNull) :
    o.lookup k = none ∨ o.lookup k = some Val.null := by
  induction o with
  | nil => left; rfl
  | cons e o ih =>
    obtain ⟨k', v⟩ := e
    have h1 : v = Val.null := h (k', v) (List.mem_cons_self _ _)
    have h2 : Obj.AllNull o := fun x hx => h x (List.mem_cons_of_mem _ hx)
    by_cases hk : k = k'
    · right; simp [List.lookup, hk, h1]
    · have hk' : (k == k') = false := by simpa using hk
      simpa [List.lookup, hk'] using ih h2

theorem Obj.clone_of_allNull (o : Obj) (h : o.AllNull) : o.clone = none := by
  unfold Obj.clone
  rcases Obj.lookup_of_allNull o "clone" h with h1 | h1 <;> rw [h1]

theorem Obj.rowsAt_of_allNull (o : Obj) (k : String) (h : o.AllNull) : o.rowsAt k = [] := by
  unfold Obj.rowsAt
  rcases Obj.lookup_of_allNull o k h with h1 | h1 <;> rw [h1]

theorem Obj.rowsAt_of_lookup_null (o : Obj) (k : String) (h : o.lookup k = some Val.null) :
    o.rowsAt k = [] := by
  unfold Obj.rowsAt
  rw [h]

theorem Obj.colsAt_of_lookup_null (o : Obj) (k : String) (h : o.lookup k = some Val.null) :
    o.colsAt k = [] := by
  unfold Obj.colsAt
  rw [h]

/-! ## The cleanup service: rows -/

theorem RowsOnly.refl (w : World) : RowsOnly w w :=
  ⟨rfl, rfl, rfl, rfl, rfl, rfl, rfl, [], by simp, by simp⟩

theorem RowsOnly.trans {w w1 w2 : World} (h1 : RowsOnly w w1) (h2 : RowsOnly w1 w2) :
    RowsOnly w w2 := by
  obtain ⟨a1, a2, a3, a4, a5, a6, a7, t1, a8, a9⟩ := h1
  obtain ⟨b1, b2, b3, b4, b5, b6, b7, t2, b8, b9⟩ := h2
  refine ⟨b1.trans a1, b2.trans a2, b3.trans a3, b4.trans a4, b5.trans a5, b6.trans a6,
    b7.trans a7, t1 ++ t2, ?_, ?_⟩
  · rw [b8, a8, List.append_assoc]
  · intro x hx
    rcases List.mem_append.1 hx with h | h
    · exact a9 x h
    · exact b9 x h

/-- One call of `cleanupRow` with enough fuel returns, leaves the row with all its
properties null, and keeps the sweep consistent. -/
theorem cleanupRow_spec (rank : Nat → Nat) (h0 : Nat → Obj)
    (hacyc : ∀ j c, (h0 j).clone = some c → rank c < rank j) :
    ∀ (fuel : Nat) (w : World) (i : Nat), Swept w.rows h0 → Closed h0 w.rows →
      rank i < fuel →
      ∃ w1, cleanupRow fuel w i = some w1 ∧ Swept w1.rows h0 ∧ Closed h0 w1.rows ∧
        (w1.rows i).AllNull ∧
        (∀ j, rank i < rank j → w1.rows j = w.rows j) ∧
        (∀ j, (w.rows j).AllNull → (w1.rows j).AllNull) ∧
        RowsOnly w w1 := by
  intro fuel
  induction fuel with
  | zero => intro w i _ _ h; exact absurd h (Nat.not_lt_zero _)
  | succ fuel ih =>
    intro w i hsw hcl hfuel
    cases hc : (w.rows i).clone with
    | none =>
      refine ⟨_, by simp only [cleanupRow, hc]; rfl, ?_, ?_, ?_, ?_, ?_, ?_⟩
      · intro j
        by_cases hj : j = i
        · left; subst hj; simp [cleanupObject_allNull]
        · simpa [Function.update_noteq hj] using hsw j
      · have hmono : ∀ j, (w.rows j).AllNull →
            (Function.update w.rows i (cleanupObject (w.rows i)) j).AllNull := by
          intro j hj
          by_cases hji : j = i
          · subst hji; simp [cleanupObject_allNull]
          · simpa [Function.update_noteq hji] using hj
        intro j c hj hcj
        apply hmono
        by_cases hji : j = i
        · subst hji
          rcases hsw j with h | h
          · exact hcl j c h hcj
          · rw [h, hcj] at hc
            cases hc
        · simp only [Function.update_noteq hji] at hj
          exact hcl j c hj hcj
      · simp [cleanupObject_allNull]
      · intro j hj
        have hji : j ≠ i := fun h => by subst h; exact Nat.lt_irrefl _ hj
        simp [Function.update_noteq hji]
      · intro j hj
        by_cases hji : j = i
        · subst hji; simp [cleanupObject_allNull]
        · simpa [Function.update_noteq hji] using hj
      · exact ⟨rfl, rfl, rfl, rfl, rfl, rfl, rfl, [.row i], rfl, by simp⟩
    | some c =>
      have hi0 : w.rows i = h0 i := by
        rcases hsw i with h | h
        · rw [Obj.clone_of_allNull _ h] at hc
          cases hc
        · exact h
      have hrank : rank c < rank i := hacyc i c (by rw [← hi0]; exact hc)
      have hci : c ≠ i := fun h => by subst h; exact Nat.lt_irrefl _ hrank
      obtain ⟨w1, hr, hsw1, hcl1, hnull1, hframe1, hmono1, hrows1⟩ :=
        ih w c hsw hcl (by omega)
      have hi1 : w1.rows i = w.rows i := hframe1 i hrank
      have hc1 : (w1.rows i).clone = some c := by rw [hi1]; exact hc
      have hmono2 : ∀ j, (w1.rows j).AllNull →
          (Function.update (Function.update w1.rows c ((w1.rows c).set "orig" Val.null)) i
            (cleanupObject (Function.update w1.rows c ((w1.rows c).set "orig" Val.null) i))
            j).AllNull := by
        intro j hj
        by_cases hji : j = i
        · subst hji; simp [cleanupObject_allNull]
        · by_cases hjc : j = c
          · subst hjc
            simp only [Function.update_noteq hji, Function.update_same]
            exact Obj.set_null_allNull _ _ hj
          · simpa [Function.update_noteq hji, Function.update_noteq hjc] using hj
      refine ⟨_, by simp only [cleanupRow, hc, hr, hc1]; rfl, ?_, ?_, ?_, ?_, ?_, ?_⟩
      · intro j
        by_cases hji : j = i
        · left; subst hji; simp [cleanupObject_allNull]
        · by_cases hjc : j = c
          · left
            exact hmono2 j (by subst hjc; exact hnull1)
          · simpa [Function.update_noteq hji, Function.update_noteq hjc] using hsw1 j
      · intro j c2 hj hcj
        apply hmono2
        by_cases hji : j = i
        · subst hji
          rw [← hi0, hc] at hcj
          cases hcj
          exact hnull1
        · by_cases hjc : j = c
          · subst hjc
            exact hcl1 j c2 hnull1 hcj
          · simp only [Function.update_noteq hji, Function.update_noteq hjc] at hj
            exact hcl1 j c2 hj hcj
      · simp [cleanupObject_allNull]
      · intro j hj
        have hji : j ≠ i := fun h => by subst h; exact Nat.lt_irrefl _ hj
        have hjc : j ≠ c := fun h => by subst h; omega
        simp only [Function.update_noteq hji, Function.update_noteq hjc]
        exact hframe1 j (by omega)
      · intro j hj
        exact hmono2 j (hmono1 j hj)
      · refine RowsOnly.trans hrows1 ?_
        exact ⟨rfl, rfl, rfl, rfl, rfl, rfl, rfl, [.row i], rfl, by simp⟩

theorem cleanupRows_spec (rank : Nat → Nat) (h0 : Nat → Obj)
    (hacyc : ∀ j c, (h0 j).clone = some c → rank c < rank j) (fuel : Nat) :
    ∀ (rs : List Nat) (w : World), Swept w.rows h0 → Closed h0 w.rows →
      (∀ r ∈ rs, rank r < fuel) →
      ∃ w1, cleanupRows fuel w rs = some w1 ∧ Swept w1.rows h0 ∧ Closed h0 w1.rows ∧
        (∀ r ∈ rs, (w1.rows r).AllNull) ∧
        (∀ j, (w.rows j).AllNull → (w1.rows j).AllNull) ∧
        RowsOnly w w1 := by
  intro rs
  induction rs with
  | nil =>
    intro w hsw hcl _
    exact ⟨w, rfl, hsw, hcl, by simp, fun _ h => h, RowsOnly.refl w⟩
  | cons r rs ih =>
    intro w hsw hcl hb
    obtain ⟨w1, hr, hsw1, hcl1, hnull1, -, hmono1, hrows1⟩ :=
      cleanupRow_spec rank h0 hacyc fuel w r hsw hcl (hb r (List.mem_cons_self _ _))
    obtain ⟨w2, hr2, hsw2, hcl2, hnull2, hmono2, hrows2⟩ :=
      ih w1 hsw1 hcl1 (fun x hx => hb x (List.mem_cons_of_mem _ hx))
    refine ⟨w2, by simp only [cleanupRows, hr, hr2], hsw2, hcl2, ?_,
      fun j hj => hmono2 j (hmono1 j hj), RowsOnly.trans hrows1 hrows2⟩
    intro x hx
    rcases List.mem_cons.1 hx with rfl | hx
    · exact hmono2 _ hnull1
    · exact hnull2 x hx

/-! ## The cleanup service: columns -/

theorem foldl_cleanupColumn_spec (cs : List Nat) :
    ∀ w : World,
      (cs.foldl cleanupColumn w).rows = w.rows ∧
      (cs.foldl cleanupColumn w).providers = w.providers ∧
      (cs.foldl cleanupColumn w).grid = w.grid ∧
      (cs.foldl cleanupColumn w).scope = w.scope ∧
      (cs.foldl cleanupColumn w).document = w.document ∧
      (cs.foldl cleanupColumn w).destroyListeners = w.destroyListeners ∧
      (cs.foldl cleanupColumn w).timeouts = w.timeouts ∧
      (cs.foldl cleanupColumn w).trace = w.trace ++ cs.map Target.col ∧
      (∀ c ∈ cs, ((cs.foldl cleanupColumn w).cols c).AllNull) ∧
      (∀ j, (w.cols j).AllNull → ((cs.foldl cleanupColumn w).cols j).AllNull) := by
  induction cs with
  | nil => intro w; simp
  | cons c cs ih =>
    intro w
    obtain ⟨a1, a2, a3, a4, a5, a6, a7, a8, a9, a10⟩ := ih (cleanupColumn w c)
    rw [List.foldl_cons]
    have hmono : ∀ j, (w.cols j).AllNull → ((cleanupColumn w c).cols j).AllNull := by
      intro j hj
      by_cases hjc : j = c
      · subst hjc; simp [cleanupColumn, cleanupObject_allNull]
      · simpa [cleanupColumn, Function.update_noteq hjc] using hj
    refine ⟨a1, a2, a3, a4, a5, a6, a7, ?_, ?_, fun j hj => a10 j (hmono j hj)⟩
    · rw [a8]
      simp [cleanupColumn]
    · intro x hx
      rcases List.mem_cons.1 hx with rfl | hx
      · exact a10 _ (by simp [cleanupColumn, cleanupObject_allNull])
      · exact a9 x hx

/-! ## The cleanup service: the grid and the sweep -/

theorem clearExtFilter_fields (w : World) :
    (clearExtFilter w).rows = w.rows ∧ (clearExtFilter w).cols = w.cols ∧
    (clearExtFilter w).grid = w.grid ∧ (clearExtFilter w).scope = w.scope ∧
    (clearExtFilter w).document = w.document ∧
    (clearExtFilter w).destroyListeners = w.destroyListeners ∧
    (clearExtFilter w).timeouts = w.timeouts ∧ (clearExtFilter w).trace = w.trace := by
  unfold clearExtFilter
  split <;> exact ⟨rfl, rfl, rfl, rfl, rfl, rfl, rfl, rfl⟩

theorem clearExtFilter_of_allNull (w : World) (h : w.grid.AllNull) : clearExtFilter w = w := by
  unfold clearExtFilter
  rcases Obj.lookup_of_allNull w.grid "searchProvider" h with h1 | h1 <;> rw [h1]

theorem detachElement_of_allNull (w : World) (k : String) (h : w.grid.AllNull) :
    detachElement w k = w := by
  unfold detachElement removeElem
  rcases Obj.lookup_of_allNull w.grid k h with h1 | h1 <;> rw [h1]

/-- With enough fuel `cleanupGrid` returns: the rows of the row cache and the grid have
all their properties null afterwards. -/
theorem cleanupGrid_spec (rank : Nat → Nat) (h0 : Nat → Obj)
    (hacyc : ∀ j c, (h0 j).clone = some c → rank c < rank j) (fuel : Nat) (w : World)
    (hsw : Swept w.rows h0) (hcl : Closed h0 w.rows)
    (hb : ∀ r ∈ w.grid.rowsAt "rowCache", rank r < fuel) :
    ∃ w1, cleanupGrid fuel w = some w1 ∧ Swept w1.rows h0 ∧ Closed h0 w1.rows ∧
      (∀ r ∈ w.grid.rowsAt "rowCache", (w1.rows r).AllNull) ∧
      (∀ j, (w.rows j).AllNull → (w1.rows j).AllNull) ∧
      w1.grid = cleanupObject w.grid ∧ w1.cols = w.cols ∧ w1.scope = w.scope ∧
      w1.destroyListeners = w.destroyListeners ∧ w1.timeouts = w.timeouts ∧
      ∃ t, w1.trace = w.trace ++ t ++ [Target.grid] ∧ ∀ x ∈ t, ∃ r, x = Target.row r := by
  obtain ⟨e1, e2, e3, e4, e5, e6, e7, e8⟩ := clearExtFilter_fields w
  have hw : ∀ wa : World, wa.rows = w.rows → wa.grid = w.grid →
      ∃ w1, cleanupRows fuel wa (wa.grid.rowsAt "rowCache") = some w1 ∧ Swept w1.rows h0 ∧
        Closed h0 w1.rows ∧ (∀ r ∈ w.grid.rowsAt "rowCache", (w1.rows r).AllNull) ∧
        (∀ j, (w.rows j).AllNull → (w1.rows j).AllNull) ∧ RowsOnly wa w1 := by
    intro wa hr hg
    have := cleanupRows_spec rank h0 hacyc fuel (wa.grid.rowsAt "rowCache") wa
      (by rw [hr]; exact hsw) (by rw [hr]; exact hcl) (by rw [hg]; exact hb)
    rw [hg, hr] at this
    rw [hg]
    exact this
  obtain ⟨w1, hr, hsw1, hcl1, hnull1, hmono1, c1, c2, c3, c4, c5, c6, c7, t, c8, c9⟩ :=
    hw (detachElement (detachElement (clearExtFilter w) "$headerScroller") "$viewport")
      e1 e3
  refine ⟨{ w1 with grid := cleanupObject w1.grid, trace := w1.trace ++ [.grid] }, ?_, hsw1,
    hcl1, hnull1, hmono1, ?_, ?_, ?_, ?_, ?_, t, ?_, c9⟩
  · simp only [cleanupGrid, hr]
  · show cleanupObject w1.grid = _
    rw [c3]
    exact congrArg cleanupObject e3
  · exact c1.trans e2
  · exact c4.trans e4
  · exact c6.trans e6
  · exact c7.trans e7
  · show w1.trace ++ [Target.grid] = _
    rw [c8]
    exact congrArg (fun x => x ++ t ++ [Target.grid]) e8

theorem Obj.lookup_set_null_of_null (o : Obj) (k k2 : String)
    (h : o.lookup k = some Val.null) : (o.set k2 Val.null).lookup k = some Val.null := by
  by_cases hk : k = k2
  · subst hk; exact Obj.lookup_set_same o k _
  · rw [Obj.lookup_set_ne o k2 k _ hk]; exact h

theorem foldl_set_null_keeps (ns : List String) :
    ∀ (o : Obj) (k : String), o.lookup k = some Val.null →
      (ns.foldl (fun o k => o.set k Val.null) o).lookup k = some Val.null := by
  induction ns with
  | nil => intro o k h; exact h
  | cons n ns ih =>
    intro o k h
    exact ih _ k (Obj.lookup_set_null_of_null o k n h)

theorem foldl_set_null_lookup (ns : List String) :
    ∀ (o : Obj) (k : String), k ∈ ns →
      (ns.foldl (fun o k => o.set k Val.null) o).lookup k = some Val.null := by
  induction ns with
  | nil => intro o k h; cases h
  | cons n ns ih =>
    intro o k h
    rcases List.mem_cons.1 h with rfl | h
    · exact foldl_set_null_keeps ns _ _ (Obj.lookup_set_same o _ _)
    · exact ih _ k h

theorem foldl_set_null_other (ns : List String) :
    ∀ (o : Obj) (k : String), k ∉ ns →
      (ns.foldl (fun o k => o.set k Val.null) o).lookup k = o.lookup k := by
  induction ns with
  | nil => intro o k _; rfl
  | cons n ns ih =>
    intro o k h
    have h1 : k ≠ n := fun e => h (e ▸ List.mem_cons_self _ _)
    have h2 : k ∉ ns := fun e => h (List.mem_cons_of_mem _ e)
    rw [List.foldl_cons, ih _ k h2, Obj.lookup_set_ne o n k _ h1]

theorem foldl_set_null_of_null (ns : List String) :
    ∀ o : Obj, (∀ k ∈ ns, o.lookup k = some Val.null) →
      ns.foldl (fun o k => o.set k Val.null) o = o := by
  induction ns with
  | nil => intro o _; rfl
  | cons n ns ih =>
    intro o h
    rw [List.foldl_cons, Obj.set_of_lookup o n _ (h n (List.mem_cons_self _ _))]
    exact ih o (fun k hk => h k (List.mem_cons_of_mem _ hk))

/-- The first sweep: with enough fuel `cleanupScopeAndGrid` returns; the rows listed in
the row cache and the rendered rows, the columns and the grid have all their properties
null afterwards; the trace grows by the columns, then rows, then the grid. -/
theorem cleanupScopeAndGrid_spec (rank : Nat → Nat) (h0 : Nat → Obj) (fuel : Nat) (w : World)
    (hr : Ready rank fuel h0 w) :
    ∃ w1, cleanupScopeAndGrid fuel w = some w1 ∧ Ready rank fuel h0 w1 ∧ SweptClean w1 ∧
      (∀ r ∈ w.grid.rowsAt "rowCache" ++ w.scope.rowsAt "renderedRows",
        (w1.rows r).AllNull) ∧
      (∀ c ∈ w.scope.colsAt "columns", (w1.cols c).AllNull) ∧
      (∀ j, (w.rows j).AllNull → (w1.rows j).AllNull) ∧
      (∀ j, (w.cols j).AllNull → (w1.cols j).AllNull) ∧
      w1.destroyListeners = w.destroyListeners ∧ w1.timeouts = w.timeouts ∧
      ∃ t, w1.trace = w.trace ++ (w.scope.colsAt "columns").map Target.col ++ t
          ++ [Target.grid] ∧
        ∀ x ∈ t, ∃ r, x = Target.row r := by
  obtain ⟨hacyc, hsw, hcl, hb⟩ := hr
  -- the scope after the closure fields are cleared
  have hcols : (scopeClosureFields.foldl (fun o k => o.set k Val.null) w.scope).colsAt "columns"
      = w.scope.colsAt "columns" := by
    unfold Obj.colsAt
    rw [foldl_set_null_other _ _ _ (by decide)]
  have hrend : ∀ o : Obj,
      (((scopeClosureFields.foldl (fun o k => o.set k Val.null) o).set "columns" Val.null).set
        "renderedColumns" Val.null).rowsAt "renderedRows" = o.rowsAt "renderedRows" := by
    intro o
    unfold Obj.rowsAt
    rw [Obj.lookup_set_ne _ _ _ _ (by decide), Obj.lookup_set_ne _ _ _ _ (by decide),
      foldl_set_null_other _ _ _ (by decide)]
  obtain ⟨a1, a2, a3, a4, a5, a6, a7, a8, a9, a10⟩ := foldl_cleanupColumn_spec
    (w.scope.colsAt "columns")
    { w with scope := scopeClosureFields.foldl (fun o k => o.set k Val.null) w.scope }
  simp only at a1 a2 a3 a4 a5 a6 a7 a8 a10
  -- the rendered rows
  obtain ⟨w1, hr1, hsw1, hcl1, hnull1, hmono1, b1, b2, b3, b4, b5, b6, b7, t1, b8, b9⟩ :=
    cleanupRows_spec rank h0 hacyc fuel (w.scope.rowsAt "renderedRows")
      { (List.foldl cleanupColumn
          { w with scope := scopeClosureFields.foldl (fun o k => o.set k Val.null) w.scope }
          (w.scope.colsAt "columns")) with
        scope := ((scopeClosureFields.foldl (fun o k => o.set k Val.null) w.scope).set
          "columns" Val.null).set "renderedColumns" Val.null }
      (by simp only [a1]; exact hsw) (by simp only [a1]; exact hcl)
      (fun r hr => hb r (List.mem_append_right _ hr))
  simp only at b1 b2 b3 b4 b5 b6 b7 b8
  -- the grid
  obtain ⟨w2, hr2, hsw2, hcl2, hnull2, hmono2, c1, c2, c3, c4, c5, t2, c6, c7⟩ :=
    cleanupGrid_spec rank h0 hacyc fuel { w1 with scope := w1.scope.set "renderedRows" Val.null }
      hsw1 hcl1 (by
        intro r hr
        simp only [b3, a3] at hr
        exact hb r (List.mem_append_left _ hr))
  simp only at hnull2 hmono2 c1 c2 c3 c4 c5 c6
  have hgrid : w2.grid.AllNull := by rw [c1]; exact cleanupObject_allNull _
  have hscope : w2.scope = ((((scopeClosureFields.foldl (fun o k => o.set k Val.null)
      w.scope).set "columns" Val.null).set "renderedColumns" Val.null).set
        "renderedRows" Val.null) := by
    rw [c3, b4]
  refine ⟨w2, ?_, ⟨hacyc, hsw2, hcl2, ?_⟩, ⟨hgrid, ?_, ?_, ?_, ?_⟩, ?_, ?_, ?_, ?_, ?_, ?_,
    t1 ++ t2, ?_, ?_⟩
  · simp only [cleanupScopeAndGrid, hcols, a4, hrend, hr1]
    exact hr2
  · intro r hr
    rw [Obj.rowsAt_of_allNull _ _ hgrid, hscope,
      Obj.rowsAt_of_lookup_null _ _ (Obj.lookup_set_same _ _ _)] at hr
    cases hr
  · intro k hk
    rw [hscope]
    exact Obj.lookup_set_null_of_null _ _ _ (Obj.lookup_set_null_of_null _ _ _
      (Obj.lookup_set_null_of_null _ _ _ (foldl_set_null_lookup _ _ _ hk)))
  · rw [hscope]
    exact Obj.lookup_set_null_of_null _ _ _ (Obj.lookup_set_null_of_null _ _ _
      (Obj.lookup_set_same _ _ _))
  · rw [hscope]
    exact Obj.lookup_set_null_of_null _ _ _ (Obj.lookup_set_same _ _ _)
  · rw [hscope]
    exact Obj.lookup_set_same _ _ _
  · intro r hr
    rcases List.mem_append.1 hr with h | h
    · apply hnull2
      simp only [b3, a3]
      exact h
    · exact hmono2 r (hnull1 r h)
  · intro c hc
    rw [c2, b1]
    exact a9 c hc
  · intro j hj
    apply hmono2
    apply hmono1
    simp only [a1]
    exact hj
  · intro j hj
    rw [c2, b1]
    exact a10 j hj
  · rw [c4, b6, a6]
  · rw [c5, b7, a7]
  · rw [c6, b8, a8]
    simp [List.append_assoc]
  · intro x hx
    rcases List.mem_append.1 hx with h | h
    · exact b9 x h
    · exact c7 x h

theorem cleanupRows_nil (fuel : Nat) (w : World) : cleanupRows fuel w [] = some w := rfl

/-- The grid part of a sweep of a world whose grid has been swept only records one more
`cleanupObject(grid)`. -/
theorem cleanupGrid_again (fuel : Nat) (w : World) (hg : w.grid.AllNull) :
    cleanupGrid fuel w = some { w with trace := w.trace ++ [Target.grid] } := by
  have e7 : w.grid.rowsAt "rowCache" = [] := Obj.rowsAt_of_allNull _ _ hg
  unfold cleanupGrid
  simp only [clearExtFilter_of_allNull w hg, detachElement_of_allNull w _ hg, e7,
    cleanupRows_nil, cleanupObject_of_allNull _ hg]

/-- A sweep of a world that has been swept changes nothing but the trace: it records one
more `cleanupObject(grid)`. -/
theorem cleanupScopeAndGrid_again (fuel : Nat) (w : World) (h : SweptClean w) :
    cleanupScopeAndGrid fuel w = some { w with trace := w.trace ++ [Target.grid] } := by
  obtain ⟨hg, hf, hc, hrc, hrr⟩ := h
  have e1 : scopeClosureFields.foldl (fun o k => o.set k Val.null) w.scope = w.scope :=
    foldl_set_null_of_null _ _ hf
  have e2 : w.scope.colsAt "columns" = [] := Obj.colsAt_of_lookup_null _ _ hc
  have e3 : w.scope.set "columns" Val.null = w.scope := Obj.set_of_lookup _ _ _ hc
  have e4 : w.scope.set "renderedColumns" Val.null = w.scope := Obj.set_of_lookup _ _ _ hrc
  have e5 : w.scope.rowsAt "renderedRows" = [] := Obj.rowsAt_of_lookup_null _ _ hrr
  have e6 : w.scope.set "renderedRows" Val.null = w.scope := Obj.set_of_lookup _ _ _ hrr
  have e8 := cleanupGrid_again fuel w hg
  obtain ⟨rows, cols, providers, grid, scope, document, destroyListeners, timeouts, trace⟩ := w
  simp only at e1 e2 e3 e4 e5 e6 e8
  unfold cleanupScopeAndGrid
  simp only [e1, e2, List.foldl_nil, e3, e4, e5, cleanupRows_nil, e6]
  exact e8

theorem sweptClean_of_fields {w w1 : World} (h : SweptClean w) (hg : w1.grid = w.grid)
    (hs : w1.scope = w.scope) : SweptClean w1 := by
  obtain ⟨a, b, c, d, e⟩ := h
  exact ⟨hg ▸ a, hs ▸ b, hs ▸ c, hs ▸ d, hs ▸ e⟩

/-- The number of registered `cleanupScopeAndGrid`, resp. `cleanupElementNgGrid`
listeners is what a run over swept state adds to the trace, resp. to the timeouts. -/
theorem runDestroyListeners_again (fuel : Nat) (ls : List DestroyListener) :
    ∀ w : World, SweptClean w →
      runDestroyListeners fuel w ls = some { w with
        timeouts := w.timeouts + ls.count .cleanupElementNgGrid
        trace := w.trace ++ List.replicate (ls.count .cleanupScopeAndGrid) Target.grid } := by
  induction ls with
  | nil => intro w _; simp [runDestroyListeners]
  | cons l ls ih =>
    intro w h
    cases l with
    | cleanupElementNgGrid =>
      have h1 : SweptClean (cleanupElementNgGrid w) := sweptClean_of_fields h rfl rfl
      simp only [runDestroyListeners, runDestroyListener, ih _ h1]
      simp [cleanupElementNgGrid]
      omega
    | cleanupScopeAndGrid =>
      have h1 : SweptClean { w with trace := w.trace ++ [Target.grid] } :=
        sweptClean_of_fields h rfl rfl
      simp only [runDestroyListeners, runDestroyListener, cleanupScopeAndGrid_again fuel w h,
        ih _ h1]
      simp [List.replicate_succ, Nat.add_comm]

/-! ## The cleanup service: the listeners registered for `$destroy` -/

theorem runDestroyListeners_append (fuel : Nat) (l1 l2 : List DestroyListener) :
    ∀ w : World, runDestroyListeners fuel w (l1 ++ l2) =
      (runDestroyListeners fuel w l1).bind (fun w1 => runDestroyListeners fuel w1 l2) := by
  induction l1 with
  | nil => intro w; rfl
  | cons l l1 ih =>
    intro w
    simp only [List.cons_append, runDestroyListeners]
    cases runDestroyListener fuel w l with
    | none => rfl
    | some w1 => exact ih w1

/-- Every listener returns on a world that is ready for the teardown and leaves it
ready; what is null stays null; and once `cleanupScopeAndGrid` has been among the
listeners run, the listed rows, the columns and the grid have all their properties
null. -/
theorem runDestroyListeners_spec (rank : Nat → Nat) (h0 : Nat → Obj) (fuel : Nat)
    (ls : List DestroyListener) :
    ∀ w : World, Ready rank fuel h0 w →
      ∃ w1, runDestroyListeners fuel w ls = some w1 ∧ Ready rank fuel h0 w1 ∧
        (∀ j, (w.rows j).AllNull → (w1.rows j).AllNull) ∧
        (∀ j, (w.cols j).AllNull → (w1.cols j).AllNull) ∧
        (SweptClean w → SweptClean w1) ∧
        (DestroyListener.cleanupScopeAndGrid ∈ ls →
          (∀ r ∈ w.grid.rowsAt "rowCache" ++ w.scope.rowsAt "renderedRows",
            (w1.rows r).AllNull) ∧
          (∀ c ∈ w.scope.colsAt "columns", (w1.cols c).AllNull) ∧
          SweptClean w1) := by
  induction ls with
  | nil =>
    intro w hr
    exact ⟨w, rfl, hr, fun _ h => h, fun _ h => h, fun h => h, fun h => by cases h⟩
  | cons l ls ih =>
    intro w hr
    cases l with
    | cleanupElementNgGrid =>
      have hr1 : Ready rank fuel h0 (cleanupElementNgGrid w) :=
        ⟨hr.acyclic, hr.swept, hr.closed, hr.bound⟩
      obtain ⟨w1, e, r1, m1, m2, m3, m4⟩ := ih _ hr1
      refine ⟨w1, by simp only [runDestroyListeners, runDestroyListener, e], r1, m1, m2,
        fun h => m3 (sweptClean_of_fields h rfl rfl), fun h => ?_⟩
      rcases List.mem_cons.1 h with h | h
      · cases h
      · exact m4 h
    | cleanupScopeAndGrid =>
      obtain ⟨ws, es, rs, cs, n1, n2, k1, k2, -, -, -⟩ :=
        cleanupScopeAndGrid_spec rank h0 fuel w hr
      obtain ⟨w1, e, r1, m1, m2, m3, -⟩ := ih ws rs
      exact ⟨w1, by simp only [runDestroyListeners, runDestroyListener, es, e], r1,
        fun j hj => m1 j (k1 j hj), fun j hj => m2 j (k2 j hj), fun _ => m3 cs,
        fun _ => ⟨fun r hr => m1 r (n1 r hr), fun c hc => m2 c (n2 c hc), m3 cs⟩⟩

theorem decorateDirectiveForHeapCleanup_eq (w : World) (p : Nat)
    (h : w.grid.lookup "eventProvider" = some (.ref p)) :
    decorateDirectiveForHeapCleanup w = some { w with
      providers := Function.update w.providers p ((w.providers p).set "assignEvents" angularNoop)
      destroyListeners := w.destroyListeners ++
        [DestroyListener.cleanupElementNgGrid, DestroyListener.cleanupScopeAndGrid] } := by
  simp [decorateDirectiveForHeapCleanup, decorateDomElement2, h]

/-- A world is ready for the teardown as it stands when its clone references descend
along `rank` and `fuel` exceeds the rank of the listed rows. -/
theorem ready_start (rank : Nat → Nat) (fuel : Nat) (w w1 : World)
    (hacyc : ∀ j c, (w.rows j).clone = some c → rank c < rank j)
    (hfuel : ∀ r ∈ w.grid.rowsAt "rowCache" ++ w.scope.rowsAt "renderedRows", rank r < fuel)
    (hrows : w1.rows = w.rows) (hgrid : w1.grid = w.grid) (hscope : w1.scope = w.scope) :
    Ready rank fuel w.rows w1 := by
  refine ⟨hacyc, ?_, ?_, ?_⟩
  · intro j; right; rw [hrows]
  · intro j c hj hc
    rw [hrows] at hj
    rw [Obj.clone_of_allNull _ hj] at hc
    cases hc
  · rw [hgrid, hscope]; exact hfuel

theorem sampleWorld_acyclic :
    ∀ j c, (sampleWorld.rows j).clone = some c → sampleRank c < sampleRank j := by
  intro j c h
  simp only [sampleWorld] at h
  split_ifs at h with h1 h2 h3
  · simp [Obj.clone, List.lookup] at h
    subst h1 h
    decide
  · simp [Obj.clone, List.lookup] at h
  · simp [Obj.clone, List.lookup] at h
  · simp [Obj.clone, List.lookup] at h

theorem sampleWorld_fuel :
    ∀ r ∈ sampleWorld.grid.rowsAt "rowCache" ++ sampleWorld.scope.rowsAt "renderedRows",
      sampleRank r < 2 := by
  decide

/-! ## C3: what the teardown leaves null -/

/-- C3: for a grid with an event provider, whose clone references descend along a rank
(every clone chain finite and acyclic) and with fuel beyond the rank of the listed rows:
registering the teardown and firing `$destroy` returns, and then every row of the row
cache and of the rendered rows, the clone each such row had, every column of
`$scope.columns` and the grid object have all their own enumerable properties null. -/
theorem teardown_nulls_rows_columns_grid (rank : Nat → Nat) (fuel : Nat) (w : World)
    (hev : ∃ p, w.grid.lookup "eventProvider" = some (.ref p))
    (hacyc : ∀ j c, (w.rows j).clone = some c → rank c < rank j)
    (hfuel : ∀ r ∈ w.grid.rowsAt "rowCache" ++ w.scope.rowsAt "renderedRows",
      rank r < fuel) :
    ∃ w1 w2, decorateDirectiveForHeapCleanup w = some w1 ∧ fireDestroy fuel w1 = some w2 ∧
      (∀ r ∈ w.grid.rowsAt "rowCache" ++ w.scope.rowsAt "renderedRows",
        (w2.rows r).AllNull ∧ ∀ c, (w.rows r).clone = some c → (w2.rows c).AllNull) ∧
      (∀ c ∈ w.scope.colsAt "columns", (w2.cols c).AllNull) ∧
      w2.grid.AllNull := by
  obtain ⟨p, hp⟩ := hev
  have hr := ready_start rank fuel w
    { w with
      providers := Function.update w.providers p ((w.providers p).set "assignEvents" angularNoop)
      destroyListeners := w.destroyListeners ++
        [DestroyListener.cleanupElementNgGrid, DestroyListener.cleanupScopeAndGrid] }
    hacyc hfuel rfl rfl rfl
  obtain ⟨w2, e, r2, -, -, -, hs⟩ := runDestroyListeners_spec rank w.rows fuel
    (w.destroyListeners ++
      [DestroyListener.cleanupElementNgGrid, DestroyListener.cleanupScopeAndGrid]) _ hr
  obtain ⟨hrows, hcols, hclean⟩ := hs (by simp)
  refine ⟨_, w2, decorateDirectiveForHeapCleanup_eq w p hp, e, ?_, hcols, hclean.grid⟩
  intro r hr
  exact ⟨hrows r hr, fun c hc => r2.closed r c (hrows r hr) hc⟩

/-- C3 at the sample grid. -/
theorem teardown_nulls_rows_columns_grid_witness :
    ∃ w1 w2, decorateDirectiveForHeapCleanup sampleWorld = some w1 ∧
      fireDestroy 2 w1 = some w2 ∧
      (∀ r ∈ sampleWorld.grid.rowsAt "rowCache" ++ sampleWorld.scope.rowsAt "renderedRows",
        (w2.rows r).AllNull ∧
        ∀ c, (sampleWorld.rows r).clone = some c → (w2.rows c).AllNull) ∧
      (∀ c ∈ sampleWorld.scope.colsAt "columns", (w2.cols c).AllNull) ∧
      w2.grid.AllNull :=
  teardown_nulls_rows_columns_grid sampleRank 2 sampleWorld ⟨0, by decide⟩
    sampleWorld_acyclic sampleWorld_fuel

/-! ## C7: the order of the cleanup within one teardown -/

/-- C7, at a concrete grid: the column is cleaned first, before any row or clone; the
grid object comes last. -/
theorem column_cleaned_before_rows :
    (cleanupScopeAndGrid 2 sampleWorld).map (fun w => w.trace)
      = some [.col 0, .row 1, .row 1, .row 0, .row 2, .grid] := by
  decide

/-- C7, amended: one run of the teardown listener, on a grid whose clone references
descend along a rank and with enough fuel, returns, and its calls of `cleanupObject`
are, in order: the columns of `$scope.columns`, then rows and row clones only, then the
grid object last. -/
theorem columns_then_rows_then_grid (rank : Nat → Nat) (fuel : Nat) (w : World)
    (hacyc : ∀ j c, (w.rows j).clone = some c → rank c < rank j)
    (hfuel : ∀ r ∈ w.grid.rowsAt "rowCache" ++ w.scope.rowsAt "renderedRows",
      rank r < fuel) :
    ∃ w1 rs, cleanupScopeAndGrid fuel w = some w1 ∧
      w1.trace = w.trace ++ (w.scope.colsAt "columns").map Target.col ++ rs ++ [Target.grid] ∧
      ∀ x ∈ rs, ∃ r, x = Target.row r := by
  obtain ⟨w1, e, -, -, -, -, -, -, -, -, rs, ht, hrs⟩ :=
    cleanupScopeAndGrid_spec rank w.rows fuel w
      (ready_start rank fuel w w hacyc hfuel rfl rfl rfl)
  exact ⟨w1, rs, e, ht, hrs⟩

/-- C7 as amended, at the sample grid. -/
theorem columns_then_rows_then_grid_witness :
    ∃ w1 rs, cleanupScopeAndGrid 2 sampleWorld = some w1 ∧
      w1.trace = sampleWorld.trace ++ (sampleWorld.scope.colsAt "columns").map Target.col
        ++ rs ++ [Target.grid] ∧
      ∀ x ∈ rs, ∃ r, x = Target.row r :=
  columns_then_rows_then_grid sampleRank 2 sampleWorld sampleWorld_acyclic sampleWorld_fuel

/-! ## C6: registering the teardown twice -/

theorem cleanupRow_listeners (X : List DestroyListener) :
    ∀ (fuel : Nat) (w : World) (i : Nat),
      cleanupRow fuel { w with destroyListeners := X } i =
        (cleanupRow fuel w i).map (fun w1 => { w1 with destroyListeners := X }) := by
  intro fuel
  induction fuel with
  | zero => intro w i; rfl
  | succ fuel ih =>
    intro w i
    simp only [cleanupRow]
    cases (w.rows i).clone with
    | none => rfl
    | some c =>
      simp only [ih w c]
      cases cleanupRow fuel w c with
      | none => rfl
      | some w1 =>
        simp only [Option.map_some']
        cases (w1.rows i).clone with
        | none => rfl
        | some c1 => rfl

theorem cleanupRows_listeners (X : List DestroyListener) (fuel : Nat) :
    ∀ (rs : List Nat) (w : World),
      cleanupRows fuel { w with destroyListeners := X } rs =
        (cleanupRows fuel w rs).map (fun w1 => { w1 with destroyListeners := X }) := by
  intro rs
  induction rs with
  | nil => intro w; rfl
  | cons r rs ih =>
    intro w
    simp only [cleanupRows, cleanupRow_listeners X fuel w r]
    cases cleanupRow fuel w r with
    | none => rfl
    | some w1 => exact ih w1

theorem foldl_cleanupColumn_listeners (X : List DestroyListener) :
    ∀ (cs : List Nat) (w : World),
      cs.foldl cleanupColumn { w with destroyListeners := X } =
        { cs.foldl cleanupColumn w with destroyListeners := X } := by
  intro cs
  induction cs with
  | nil => intro w; rfl
  | cons c cs ih => intro w; exact ih (cleanupColumn w c)

theorem clearExtFilter_listeners (X : List DestroyListener) (w : World) :
    clearExtFilter { w with destroyListeners := X } =
      { clearExtFilter w with destroyListeners := X } := by
  unfold clearExtFilter
  simp only
  split <;> rfl

theorem cleanupGrid_listeners (X : List DestroyListener) (fuel : Nat) (w : World) :
    cleanupGrid fuel { w with destroyListeners := X } =
      (cleanupGrid fuel w).map (fun w1 => { w1 with destroyListeners := X }) := by
  unfold cleanupGrid
  simp only [clearExtFilter_listeners]
  have h := cleanupRows_listeners X fuel
    ((detachElement (detachElement (clearExtFilter w) "$headerScroller") "$viewport").grid.rowsAt
      "rowCache")
    (detachElement (detachElement (clearExtFilter w) "$headerScroller") "$viewport")
  simp only [detachElement] at h ⊢
  rw [h]
  cases cleanupRows fuel _ _ with
  | none => rfl
  | some w1 => rfl

theorem cleanupScopeAndGrid_listeners (X : List DestroyListener) (fuel : Nat) (w : World) :
    cleanupScopeAndGrid fuel { w with destroyListeners := X } =
      (cleanupScopeAndGrid fuel w).map (fun w1 => { w1 with destroyListeners := X }) := by
  obtain ⟨rows, cols, providers, grid, scope, document, L, timeouts, trace⟩ := w
  unfold cleanupScopeAndGrid
  simp only
  generalize List.foldl (fun o k => o.set k Val.null) scope scopeClosureFields = S
  have h1 := foldl_cleanupColumn_listeners X (S.colsAt "columns")
    ⟨rows, cols, providers, grid, S, document, L, timeouts, trace⟩
  simp only at h1
  rw [h1]
  simp only
  generalize List.foldl cleanupColumn
    ⟨rows, cols, providers, grid, S, document, L, timeouts, trace⟩ (S.colsAt "columns") = wb
  have h2 := cleanupRows_listeners X fuel
    (((wb.scope.set "columns" Val.null).set "renderedColumns" Val.null).rowsAt "renderedRows")
    ⟨wb.rows, wb.cols, wb.providers, wb.grid,
      (wb.scope.set "columns" Val.null).set "renderedColumns" Val.null, wb.document,
      wb.destroyListeners, wb.timeouts, wb.trace⟩
  simp only at h2
  rw [h2]
  cases cleanupRows fuel _ _ with
  | none => rfl
  | some w1 =>
    have h3 := cleanupGrid_listeners X fuel
      ⟨w1.rows, w1.cols, w1.providers, w1.grid, w1.scope.set "renderedRows" Val.null,
        w1.document, w1.destroyListeners, w1.timeouts, w1.trace⟩
    simp only at h3
    simp only [Option.map_some']
    exact h3

theorem runDestroyListeners_listeners (X : List DestroyListener) (fuel : Nat) :
    ∀ (ls : List DestroyListener) (w : World),
      runDestroyListeners fuel { w with destroyListeners := X } ls =
        (runDestroyListeners fuel w ls).map (fun w1 => { w1 with destroyListeners := X }) := by
  intro ls
  induction ls with
  | nil => intro w; rfl
  | cons l ls ih =>
    intro w
    cases l with
    | cleanupElementNgGrid =>
      simp only [runDestroyListeners, runDestroyListener]
      exact ih (cleanupElementNgGrid w)
    | cleanupScopeAndGrid =>
      simp only [runDestroyListeners, runDestroyListener, cleanupScopeAndGrid_listeners]
      cases cleanupScopeAndGrid fuel w with
      | none => rfl
      | some w1 => exact ih w1

/-- A second registration finds `assignEvents` already replaced: it only adds the two
listeners once more. -/
theorem decorateDirectiveForHeapCleanup_twice (w : World) (p : Nat)
    (h : w.grid.lookup "eventProvider" = some (.ref p)) :
    (decorateDirectiveForHeapCleanup w).bind decorateDirectiveForHeapCleanup =
      some { w with
        providers := Function.update w.providers p
          ((w.providers p).set "assignEvents" angularNoop)
        destroyListeners := (w.destroyListeners ++
          [DestroyListener.cleanupElementNgGrid, DestroyListener.cleanupScopeAndGrid]) ++
          [DestroyListener.cleanupElementNgGrid, DestroyListener.cleanupScopeAndGrid] } := by
  have e2 := decorateDirectiveForHeapCleanup_eq
    { w with
      providers := Function.update w.providers p ((w.providers p).set "assignEvents" angularNoop)
      destroyListeners := w.destroyListeners ++
        [DestroyListener.cleanupElementNgGrid, DestroyListener.cleanupScopeAndGrid] } p h
  rw [decorateDirectiveForHeapCleanup_eq w p h, Option.some_bind, e2]
  simp only [Function.update_same, Function.update_idem]
  rw [Obj.set_of_lookup _ _ _ (Obj.lookup_set_same _ _ _)]

/-- C6, at a concrete grid: after two registrations one `$destroy` signal schedules two
deferred disposals and runs the field-clearing sweep twice (two `cleanupObject(grid)`
calls); after one registration it is one of each. -/
theorem double_registration_runs_teardown_twice :
    (((decorateDirectiveForHeapCleanup sampleWorld).bind decorateDirectiveForHeapCleanup).bind
        (fireDestroy 2)).map (fun w => (w.timeouts, w.trace.count Target.grid))
      = some (2, 2) ∧
    ((decorateDirectiveForHeapCleanup sampleWorld).bind (fireDestroy 2)).map
        (fun w => (w.timeouts, w.trace.count Target.grid))
      = some (1, 1) := by
  decide

/-- C6, amended: registering the teardown twice on the same root and firing `$destroy`
once runs the teardown twice: compared with a single registration one more deferred
disposal is scheduled and the sweep runs once more; the second sweep finds everything
null already, so the rows, columns, providers, grid, scope properties and document are
the same as after a single registration. -/
theorem double_registration_sweeps_again (rank : Nat → Nat) (fuel : Nat) (w : World)
    (hev : ∃ p, w.grid.lookup "eventProvider" = some (.ref p))
    (hacyc : ∀ j c, (w.rows j).clone = some c → rank c < rank j)
    (hfuel : ∀ r ∈ w.grid.rowsAt "rowCache" ++ w.scope.rowsAt "renderedRows",
      rank r < fuel) :
    ∃ once twice,
      (decorateDirectiveForHeapCleanup w).bind (fireDestroy fuel) = some once ∧
      ((decorateDirectiveForHeapCleanup w).bind decorateDirectiveForHeapCleanup).bind
        (fireDestroy fuel) = some twice ∧
      twice.timeouts = once.timeouts + 1 ∧
      twice.trace = once.trace ++ [Target.grid] ∧
      twice.rows = once.rows ∧ twice.cols = once.cols ∧ twice.providers = once.providers ∧
      twice.grid = once.grid ∧ twice.scope = once.scope ∧
      twice.document = once.document := by
  obtain ⟨p, hp⟩ := hev
  have hr := ready_start rank fuel w
    { w with
      providers := Function.update w.providers p ((w.providers p).set "assignEvents" angularNoop)
      destroyListeners := w.destroyListeners ++
        [DestroyListener.cleanupElementNgGrid, DestroyListener.cleanupScopeAndGrid] }
    hacyc hfuel rfl rfl rfl
  obtain ⟨once, e, -, -, -, -, hs⟩ := runDestroyListeners_spec rank w.rows fuel
    (w.destroyListeners ++
      [DestroyListener.cleanupElementNgGrid, DestroyListener.cleanupScopeAndGrid]) _ hr
  obtain ⟨-, -, hclean⟩ := hs (by simp)
  have hclean2 : SweptClean { once with
      destroyListeners := (w.destroyListeners ++
        [DestroyListener.cleanupElementNgGrid, DestroyListener.cleanupScopeAndGrid]) ++
        [DestroyListener.cleanupElementNgGrid, DestroyListener.cleanupScopeAndGrid] } :=
    sweptClean_of_fields hclean rfl rfl
  have e2 := runDestroyListeners_again fuel
    [DestroyListener.cleanupElementNgGrid, DestroyListener.cleanupScopeAndGrid] _ hclean2
  have e3 := runDestroyListeners_listeners
    ((w.destroyListeners ++
      [DestroyListener.cleanupElementNgGrid, DestroyListener.cleanupScopeAndGrid]) ++
      [DestroyListener.cleanupElementNgGrid, DestroyListener.cleanupScopeAndGrid]) fuel
    (w.destroyListeners ++
      [DestroyListener.cleanupElementNgGrid, DestroyListener.cleanupScopeAndGrid])
    { w with
      providers := Function.update w.providers p ((w.providers p).set "assignEvents" angularNoop)
      destroyListeners := w.destroyListeners ++
        [DestroyListener.cleanupElementNgGrid, DestroyListener.cleanupScopeAndGrid] }
  rw [e] at e3
  simp only [Option.map_some'] at e3
  refine ⟨once,
    { once with
      destroyListeners := (w.destroyListeners ++
        [DestroyListener.cleanupElementNgGrid, DestroyListener.cleanupScopeAndGrid]) ++
        [DestroyListener.cleanupElementNgGrid, DestroyListener.cleanupScopeAndGrid]
      timeouts := once.timeouts + 1
      trace := once.trace ++ [Target.grid] }, ?_, ?_, ?_, ?_, ?_, ?_, ?_, ?_, ?_, ?_⟩
  · rw [decorateDirectiveForHeapCleanup_eq w p hp, Option.some_bind]
    exact e
  · rw [decorateDirectiveForHeapCleanup_twice w p hp, Option.some_bind]
    unfold fireDestroy
    simp only
    rw [runDestroyListeners_append, e3, Option.some_bind]
    exact e2
  all_goals simp

/-- C6 as amended, at the sample grid. -/
theorem double_registration_sweeps_again_witness :
    ∃ once twice,
      (decorateDirectiveForHeapCleanup sampleWorld).bind (fireDestroy 2) = some once ∧
      ((decorateDirectiveForHeapCleanup sampleWorld).bind
        decorateDirectiveForHeapCleanup).bind (fireDestroy 2) = some twice ∧
      twice.timeouts = once.timeouts + 1 ∧
      twice.trace = once.trace ++ [Target.grid] ∧
      twice.rows = once.rows ∧ twice.cols = once.cols ∧ twice.providers = once.providers ∧
      twice.grid = once.grid ∧ twice.scope = once.scope ∧
      twice.document = once.document :=
  double_registration_sweeps_again sampleRank 2 sampleWorld ⟨0, by decide⟩
    sampleWorld_acyclic sampleWorld_fuel

/-! ## Listener-count tables -/

theorem CountTable.lookup_assigned (t : CountTable) (k : String) (x : Count) :
    (t.set k x).lookup k = some x := by
  induction t with
  | nil => simp [CountTable.set, List.lookup]
  | cons e t ih =>
    obtain ⟨k', v⟩ := e
    by_cases hk : k' = k
    · simp [CountTable.set, hk, List.lookup]
    · have hk' : (k == k') = false := by simpa using fun h => hk h.symm
      simp [CountTable.set, hk, List.lookup, hk', ih]

theorem CountTable.lookup_unassigned (t : CountTable) (k k2 : String) (x : Count) (hne : k2 ≠ k) :
    (t.set k x).lookup k2 = t.lookup k2 := by
  induction t with
  | nil =>
    have : (k2 == k) = false := by simpa using hne
    simp [CountTable.set, List.lookup, this]
  | cons e t ih =>
    obtain ⟨k', v⟩ := e
    by_cases hk : k' = k
    · subst hk
      have : (k2 == k') = false := by simpa using hne
      simp [CountTable.set, List.lookup, this]
    · by_cases h2 : k2 = k'
      · subst h2
        simp [CountTable.set, hk, List.lookup]
      · have : (k2 == k') = false := by simpa using h2
        simp [CountTable.set, hk, List.lookup, this, ih]

theorem CountTable.delete_cons_same (t : CountTable) (k : String) (v : Count) :
    CountTable.delete ((k, v) :: t) k = CountTable.delete t k := by
  unfold CountTable.delete
  rw [List.filter_cons_of_neg (by simp)]

theorem CountTable.delete_cons_ne (t : CountTable) (k k2 : String) (v : Count) (h : k2 ≠ k) :
    CountTable.delete ((k2, v) :: t) k = (k2, v) :: CountTable.delete t k := by
  unfold CountTable.delete
  rw [List.filter_cons_of_pos (by simpa using h)]

theorem CountTable.lookup_delete_same (t : CountTable) (k : String) :
    (CountTable.delete t k).lookup k = none := by
  induction t with
  | nil => rfl
  | cons e t ih =>
    obtain ⟨k', v⟩ := e
    by_cases hk : k' = k
    · subst hk
      rw [CountTable.delete_cons_same]
      exact ih
    · have hk' : (k == k') = false := by simpa using fun h => hk h.symm
      rw [CountTable.delete_cons_ne _ _ _ _ hk]
      simp only [List.lookup, hk']
      exact ih

theorem CountTable.lookup_delete_ne (t : CountTable) (k k2 : String) (hne : k2 ≠ k) :
    (CountTable.delete t k).lookup k2 = t.lookup k2 := by
  induction t with
  | nil => rfl
  | cons e t ih =>
    obtain ⟨k', v⟩ := e
    by_cases hk : k' = k
    · subst hk
      have : (k2 == k') = false := by simpa using hne
      rw [CountTable.delete_cons_same]
      simp only [List.lookup, this]
      exact ih
    · rw [CountTable.delete_cons_ne _ _ _ _ hk]
      by_cases h2 : k2 = k'
      · subst h2
        simp [List.lookup]
      · have : (k2 == k') = false := by simpa using h2
        simp only [List.lookup, this]
        exact ih

/-- Decrementing one name leaves the entries of the other names alone. -/
theorem CountTable.lookup_decrement_ne (t : CountTable) (c : Count) (k k2 : String)
    (hne : k2 ≠ k) : (t.decrement c k).lookup k2 = t.lookup k2 := by
  unfold CountTable.decrement
  simp only
  split
  · rw [CountTable.lookup_delete_ne _ _ _ hne, CountTable.lookup_unassigned _ _ _ _ hne]
  · rw [CountTable.lookup_unassigned _ _ _ _ hne]

/-- Decrementing a name with a numeric count: the difference, or no entry once the
difference is zero. -/
theorem CountTable.lookup_decrement_same (t : CountTable) (b c : Int) (k : String)
    (h : t.lookup k = some (some b)) :
    (t.decrement (some c) k).lookup k = if b - c = 0 then none else some (some (b - c)) := by
  unfold CountTable.decrement
  simp only [CountTable.get, h, Count.sub]
  by_cases hz : b - c = 0
  · simp [hz, CountTable.lookup_delete_same]
  · simp [hz, CountTable.lookup_assigned]

theorem CountTable.lookup_eq_none_iff (t : CountTable) (k : String) :
    t.lookup k = none ↔ k ∉ t.map Prod.fst := by
  induction t with
  | nil => simp [List.lookup]
  | cons e t ih =>
    obtain ⟨k', v⟩ := e
    by_cases hk : k = k'
    · subst hk
      simp [List.lookup]
    · have hk' : (k == k') = false := by simpa using hk
      simp only [List.lookup, hk', ih, List.map_cons, List.mem_cons, not_or]
      exact ⟨fun h => ⟨hk, h⟩, fun h => h.2⟩

theorem CountTable.lookup_of_mem (t : CountTable) (hnd : (t.map Prod.fst).Nodup) :
    ∀ e ∈ t, t.lookup e.1 = some e.2 := by
  induction t with
  | nil => intro e he; cases he
  | cons a t ih =>
    obtain ⟨k', v⟩ := a
    simp only [List.map_cons, List.nodup_cons] at hnd
    intro e he
    rcases List.mem_cons.1 he with rfl | he
    · simp [List.lookup]
    · have hne : e.1 ≠ k' := fun h => hnd.1 (h ▸ List.mem_map_of_mem Prod.fst he)
      have hk' : (e.1 == k') = false := by simpa using hne
      simp only [List.lookup, hk']
      exact ih hnd.2 e he

theorem CountTable.delete_of_not_mem (t : CountTable) (k : String)
    (h : k ∉ t.map Prod.fst) : CountTable.delete t k = t := by
  induction t with
  | nil => rfl
  | cons e t ih =>
    obtain ⟨k', v⟩ := e
    simp only [List.map_cons, List.mem_cons, not_or] at h
    rw [CountTable.delete_cons_ne _ _ _ _ (fun e => h.1 e.symm), ih h.2]

theorem CountTable.decrement_cons_ne (t : CountTable) (c : Count) (k k2 : String) (v : Count)
    (h : k2 ≠ k) :
    CountTable.decrement ((k2, v) :: t) c k = (k2, v) :: CountTable.decrement t c k := by
  have hk : (k == k2) = false := by simpa using fun e => h e.symm
  have hget : CountTable.get ((k2, v) :: t) k = CountTable.get t k := by
    simp [CountTable.get, List.lookup, hk]
  unfold CountTable.decrement
  simp only [hget, CountTable.set, if_neg h]
  split
  · rw [CountTable.delete_cons_ne _ _ _ _ h]
  · rfl

theorem CountTable.decrement_cons_same (t : CountTable) (x c : Int) (k : String)
    (h : k ∉ t.map Prod.fst) :
    CountTable.decrement ((k, some x) :: t) (some c) k =
      if x - c = 0 then t else (k, some (x - c)) :: t := by
  have hget : CountTable.get ((k, some x) :: t) k = some x := by
    simp [CountTable.get, List.lookup]
  unfold CountTable.decrement
  simp only [hget, Count.sub, CountTable.set, if_true]
  by_cases hz : x - c = 0
  · simp only [hz, if_true]
    rw [CountTable.delete_cons_same, CountTable.delete_of_not_mem _ _ h]
  · have : (some (x - c) : Count) ≠ some 0 := fun e => hz (Option.some.inj e)
    simp only [this, hz, if_false]

theorem CountTable.wf_cons (e : String × Count) (t : CountTable) :
    CountTable.WF (e :: t) ↔ e.1 ∉ t.map Prod.fst ∧ e.2 ≠ none ∧ CountTable.WF t := by
  unfold CountTable.WF
  simp only [List.map_cons, List.nodup_cons, List.mem_cons, forall_eq_or_imp]
  tauto

theorem CountTable.sum_of_wf (t : CountTable) (h : t.WF) : ∃ s : Int, t.sum = some s := by
  induction t with
  | nil => exact ⟨0, rfl⟩
  | cons e t ih =>
    obtain ⟨-, h2, h3⟩ := (CountTable.wf_cons e t).1 h
    obtain ⟨s, hs⟩ := ih h3
    obtain ⟨k, v⟩ := e
    cases v with
    | none => exact absurd rfl h2
    | some x => exact ⟨x + s, by simp [CountTable.sum, hs, Count.add]⟩

/-- One decrement of a name the table holds a number for: the table stays well formed
and its sum goes down by the count. -/
theorem CountTable.decrement_wf_sum (t : CountTable) (c : Int) (k : String) :
    t.WF → ∀ b : Int, t.lookup k = some (some b) →
      (t.decrement (some c) k).WF ∧
      (t.decrement (some c) k).sum = Count.sub t.sum (some c) := by
  induction t with
  | nil => intro _ b h; simp [List.lookup] at h
  | cons e t ih =>
    intro hwf b hb
    obtain ⟨h1, h2, h3⟩ := (CountTable.wf_cons e t).1 hwf
    obtain ⟨s, hs⟩ := CountTable.sum_of_wf t h3
    obtain ⟨k', v⟩ := e
    by_cases hk : k' = k
    · subst hk
      simp only [List.lookup, beq_self_eq_true] at hb
      cases hb
      rw [CountTable.decrement_cons_same _ _ _ _ h1]
      by_cases hz : b - c = 0
      · simp only [hz, if_true]
        refine ⟨h3, ?_⟩
        simp only [CountTable.sum, hs, Count.add, Count.sub]
        congr 1
        omega
      · simp only [hz, if_false]
        refine ⟨(CountTable.wf_cons _ _).2 ⟨h1, by simp, h3⟩, ?_⟩
        simp only [CountTable.sum, hs, Count.add, Count.sub]
        congr 1
        omega
    · have hk' : (k == k') = false := by simpa using fun h => hk h.symm
      simp only [List.lookup, hk'] at hb
      obtain ⟨i1, i2⟩ := ih h3 b hb
      rw [CountTable.decrement_cons_ne _ _ _ _ _ hk]
      refine ⟨(CountTable.wf_cons _ _).2 ⟨?_, h2, i1⟩, ?_⟩
      · rw [← CountTable.lookup_eq_none_iff, CountTable.lookup_decrement_ne _ _ _ _ hk,
          CountTable.lookup_eq_none_iff]
        exact h1
      · cases v with
        | none => exact absurd rfl h2
        | some x =>
          simp only [CountTable.sum, i2, hs, Count.add, Count.sub]
          congr 1
          omega

/-- The table of a scope on the walk after every entry of the node has been
decremented in it. -/
theorem CountTable.foldl_decrement_spec (es : CountTable) :
    es.WF → ∀ t : CountTable, t.WF →
      (∀ e ∈ es, ∃ b : Int, t.lookup e.1 = some (some b)) →
      (es.foldl (fun t e => t.decrement e.2 e.1) t).WF ∧
      (∀ n, n ∉ es.map Prod.fst →
        (es.foldl (fun t e => t.decrement e.2 e.1) t).lookup n = t.lookup n) ∧
      (∀ n c, (n, some c) ∈ es → ∀ b : Int, t.lookup n = some (some b) →
        (es.foldl (fun t e => t.decrement e.2 e.1) t).lookup n
          = if b - c = 0 then none else some (some (b - c))) ∧
      (es.foldl (fun t e => t.decrement e.2 e.1) t).sum = Count.sub t.sum es.sum := by
  induction es with
  | nil =>
    intro _ t ht _
    obtain ⟨s, hs⟩ := CountTable.sum_of_wf t ht
    refine ⟨ht, fun _ _ => rfl, (fun n c h => by cases h), ?_⟩
    simp [CountTable.sum, hs, Count.sub]
  | cons e es ih =>
    intro hes t ht hex
    obtain ⟨h1, h2, h3⟩ := (CountTable.wf_cons e es).1 hes
    obtain ⟨k, v⟩ := e
    cases v with
    | none => exact absurd rfl h2
    | some c =>
      obtain ⟨b0, hb0⟩ := hex (k, some c) (List.mem_cons_self _ _)
      obtain ⟨w1, w2⟩ := CountTable.decrement_wf_sum t c k ht b0 hb0
      have h1 : k ∉ es.map Prod.fst := h1
      have hne : ∀ e ∈ es, e.1 ≠ k := fun e he h =>
        h1 (by rw [← h]; exact List.mem_map_of_mem Prod.fst he)
      obtain ⟨i1, i2, i3, i4⟩ := ih h3 (t.decrement (some c) k) w1 (by
        intro e he
        obtain ⟨b, hb⟩ := hex e (List.mem_cons_of_mem _ he)
        exact ⟨b, by rw [CountTable.lookup_decrement_ne _ _ _ _ (hne e he)]; exact hb⟩)
      simp only [List.foldl_cons]
      refine ⟨i1, ?_, ?_, ?_⟩
      · intro n hn
        simp only [List.map_cons, List.mem_cons, not_or] at hn
        rw [i2 n hn.2, CountTable.lookup_decrement_ne _ _ _ _ hn.1]
      · intro n c2 hmem b hb
        rcases List.mem_cons.1 hmem with heq | hmem
        · obtain ⟨hn, hc⟩ := Prod.mk.inj heq
          have hc2 : c2 = c := Option.some.inj hc
          rw [hn] at hb ⊢
          rw [hc2, i2 k h1]
          exact CountTable.lookup_decrement_same t b c k hb
        · have hnk : n ≠ k := hne _ hmem
          exact i3 n c2 hmem b (by rw [CountTable.lookup_decrement_ne _ _ _ _ hnk]; exact hb)
      · obtain ⟨s, hs⟩ := CountTable.sum_of_wf t ht
        obtain ⟨s2, hs2⟩ := CountTable.sum_of_wf es h3
        rw [i4, w2]
        simp only [CountTable.sum, hs, hs2, Count.sub, Count.add]
        congr 1
        omega

/-! ## The parent chain -/

theorem Ancestors.congr {h h1 : ScopeHeap} (hp : ∀ j, (h1 j).parent = (h j).parent) :
    ∀ (l : List Nat) (i : Nat), Ancestors h i l → Ancestors h1 i l := by
  intro l
  induction l with
  | nil => intro i hi; exact (hp i).trans hi
  | cons p l ih => intro i hi; exact ⟨(hp i).trans hi.1, ih p hi.2⟩

theorem Ancestors.unique {h : ScopeHeap} :
    ∀ (l l2 : List Nat) (i : Nat), Ancestors h i l → Ancestors h i l2 → l = l2 := by
  intro l
  induction l with
  | nil =>
    intro l2 i h1 h2
    cases l2 with
    | nil => rfl
    | cons p l2 =>
      have h1' : (h i).parent = none := h1
      have := h2.1
      rw [h1'] at this
      cases this
  | cons p l ih =>
    intro l2 i h1 h2
    cases l2 with
    | nil =>
      have h2' : (h i).parent = none := h2
      have := h1.1
      rw [h2'] at this
      cases this
    | cons p2 l2 =>
      have e : some p = some p2 := h1.1.symm.trans h2.1
      cases e
      rw [ih l2 p h1.2 h2.2]

/-- Every scope on the chain has the rest of the chain, a shorter list, as its own
chain. -/
theorem Ancestors.of_mem {h : ScopeHeap} :
    ∀ (l : List Nat) (i p : Nat), Ancestors h i l → p ∈ l →
      ∃ l2, Ancestors h p l2 ∧ l2.length < l.length := by
  intro l
  induction l with
  | nil => intro i p _ hp; cases hp
  | cons q l ih =>
    intro i p hi hp
    rcases List.mem_cons.1 hp with rfl | hp
    · exact ⟨l, hi.2, by simp⟩
    · obtain ⟨l2, a, b⟩ := ih q p hi.2 hp
      exact ⟨l2, a, by simp only [List.length_cons]; omega⟩

theorem Ancestors.not_mem {h : ScopeHeap} (l : List Nat) (i : Nat) (hi : Ancestors h i l) :
    i ∉ l := by
  intro hm
  obtain ⟨l2, a, b⟩ := Ancestors.of_mem l i i hi hm
  have := Ancestors.unique l l2 i hi a
  rw [this] at b
  exact Nat.lt_irrefl _ b

theorem Ancestors.nodup {h : ScopeHeap} :
    ∀ (l : List Nat) (i : Nat), Ancestors h i l → (i :: l).Nodup := by
  intro l
  induction l with
  | nil => intro i _; simp
  | cons p l ih =>
    intro i hi
    exact List.nodup_cons.2 ⟨Ancestors.not_mem _ i hi, ih p hi.2⟩

/-! ## The walk up the parent chain -/

theorem decrementAt_parent (h : ScopeHeap) (visited : List Nat) (c : Count) (n : String)
    (j : Nat) : (decrementAt h visited c n j).parent = (h j).parent := by
  unfold decrementAt
  split <;> rfl

theorem decrementListenerCount_succ (fuel : Nat) (h h1 : ScopeHeap) (cur : Nat) (c : Count)
    (n : String)
    (hh : h1 = Function.update h cur
      { h cur with listenerCount := (h cur).listenerCount.decrement c n }) :
    decrementListenerCount (fuel + 1) h cur c n =
      match (h cur).parent with
      | some p => decrementListenerCount fuel h1 p c n
      | none => some h1 := by
  subst hh
  simp only [decrementListenerCount, Function.update_same]

/-- With fuel beyond the length of the chain, one walk of `decrementListenerCount`
returns, having decremented the table of the scope it starts from and of every
ancestor. -/
theorem decrementListenerCount_spec (c : Count) (n : String) :
    ∀ (l : List Nat) (fuel : Nat) (h : ScopeHeap) (cur : Nat), Ancestors h cur l →
      l.length < fuel →
      decrementListenerCount fuel h cur c n = some (decrementAt h (cur :: l) c n) := by
  intro l
  induction l with
  | nil =>
    intro fuel h cur hc hf
    cases fuel with
    | zero => exact absurd hf (Nat.not_lt_zero _)
    | succ fuel =>
      have hp : (h cur).parent = none := hc
      obtain ⟨h1, hh⟩ : ∃ h1, h1 = Function.update h cur
        { h cur with listenerCount := (h cur).listenerCount.decrement c n } := ⟨_, rfl⟩
      rw [decrementListenerCount_succ fuel h h1 cur c n hh, hp]
      simp only
      congr 1
      funext j
      rw [hh]
      by_cases hj : j = cur
      · subst hj; simp [decrementAt]
      · simp [decrementAt, hj, Function.update_noteq hj]
  | cons p l ih =>
    intro fuel h cur hc hf
    cases fuel with
    | zero => exact absurd hf (Nat.not_lt_zero _)
    | succ fuel =>
      have hp : (h cur).parent = some p := hc.1
      have hnd := Ancestors.nodup (p :: l) cur hc
      have hcur : cur ∉ p :: l := (List.nodup_cons.1 hnd).1
      obtain ⟨h1, hh⟩ : ∃ h1, h1 = Function.update h cur
        { h cur with listenerCount := (h cur).listenerCount.decrement c n } := ⟨_, rfl⟩
      have hanc : Ancestors h1 p l := by
        refine Ancestors.congr (fun j => ?_) l p hc.2
        rw [hh]
        by_cases hj : j = cur
        · subst hj; simp
        · simp [Function.update_noteq hj]
      rw [decrementListenerCount_succ fuel h h1 cur c n hh, hp]
      simp only
      rw [ih fuel h1 p hanc (by simpa using hf)]
      congr 1
      funext j
      rw [hh]
      by_cases hj : j = cur
      · subst hj
        simp [decrementAt, hcur]
      · by_cases hm : j ∈ p :: l
        · simp [decrementAt, hm, hj, Function.update_noteq hj]
        · simp only [decrementAt, if_neg hm, Function.update_noteq hj]
          rw [if_neg]
          simpa [hj] using hm

/-- With fuel beyond the length of the chain, the loop over the names of the node
returns, having decremented every entry of the node in the node's own table and in the
table of every ancestor. -/
theorem forEachListenerCount_spec (fuel : Nat) (i : Nat) (l : List Nat)
    (hf : l.length < fuel) :
    ∀ (es : CountTable) (h : ScopeHeap), (es.map Prod.fst).Nodup →
      (∀ e ∈ es, (h i).listenerCount.lookup e.1 = some e.2) → Ancestors h i l →
      forEachListenerCount fuel h i (es.map Prod.fst) = some (decrementAll h (i :: l) es) := by
  intro es
  induction es with
  | nil =>
    intro h _ _ _
    simp only [List.map_nil, forEachListenerCount]
    congr 1
    funext j
    simp only [decrementAll, List.foldl_nil]
    split <;> rfl
  | cons e es ih =>
    intro h hnd hl hc
    simp only [List.map_cons, List.nodup_cons] at hnd
    have he := hl e (List.mem_cons_self _ _)
    simp only [List.map_cons, forEachListenerCount, he,
      decrementListenerCount_spec e.2 e.1 l fuel h i hc hf]
    have hanc : Ancestors (decrementAt h (i :: l) e.2 e.1) i l :=
      Ancestors.congr (decrementAt_parent h _ _ _) l i hc
    rw [ih (decrementAt h (i :: l) e.2 e.1) hnd.2 ?_ hanc]
    · congr 1
      funext j
      by_cases hj : j ∈ i :: l
      · simp only [decrementAll, decrementAt, if_pos hj, List.foldl_cons]
      · simp only [decrementAll, decrementAt, if_neg hj]
    · intro e2 he2
      have hne : e2.1 ≠ e.1 := fun hh => hnd.1 (hh ▸ List.mem_map_of_mem Prod.fst he2)
      simp only [decrementAt, List.mem_cons, true_or, if_true]
      rw [CountTable.lookup_decrement_ne _ _ _ _ hne]
      exact hl e2 (List.mem_cons_of_mem _ he2)

/-! ## C8: the listener counts after the rebuilt disposal routine -/

theorem listenerCount_update (h : ScopeHeap) (a : Nat) (x : ScopeNode) (j : Nat)
    (hx : x.listenerCount = (h a).listenerCount) :
    (Function.update h a x j).listenerCount = (h j).listenerCount := by
  by_cases hj : j = a
  · subst hj; simp [hx]
  · simp [Function.update_noteq hj]

theorem relinkHead_listenerCount (h : ScopeHeap) (par scope j : Nat) :
    (relinkHead h par scope j).listenerCount = (h j).listenerCount := by
  unfold relinkHead
  split
  · exact listenerCount_update _ _ _ _ rfl
  · rfl

theorem relinkTail_listenerCount (h : ScopeHeap) (par scope j : Nat) :
    (relinkTail h par scope j).listenerCount = (h j).listenerCount := by
  unfold relinkTail
  split
  · exact listenerCount_update _ _ _ _ rfl
  · rfl

theorem relinkPrev_listenerCount (h : ScopeHeap) (scope j : Nat) :
    (relinkPrev h scope j).listenerCount = (h j).listenerCount := by
  unfold relinkPrev
  cases (h scope).prevSibling with
  | none => rfl
  | some s => exact listenerCount_update _ _ _ _ rfl

theorem relinkNext_listenerCount (h : ScopeHeap) (scope j : Nat) :
    (relinkNext h scope j).listenerCount = (h j).listenerCount := by
  unfold relinkNext
  cases (h scope).nextSibling with
  | none => rfl
  | some s => exact listenerCount_update _ _ _ _ rfl

theorem unlinkFromParent_listenerCount (h : ScopeHeap) (par scope j : Nat) :
    (unlinkFromParent h par scope j).listenerCount = (h j).listenerCount := by
  unfold unlinkFromParent
  rw [relinkNext_listenerCount, relinkPrev_listenerCount, relinkTail_listenerCount,
    relinkHead_listenerCount]

theorem severScope_listenerCount (h : ScopeHeap) (scope j : Nat) :
    (severScope h scope j).listenerCount = (h j).listenerCount := by
  unfold severScope
  exact listenerCount_update _ _ _ _ rfl

theorem decrementAll_listenerCount_congr (h h1 : ScopeHeap) (visited : List Nat)
    (es : CountTable) (hh : ∀ j, (h1 j).listenerCount = (h j).listenerCount) (j : Nat) :
    (decrementAll h1 visited es j).listenerCount
      = (decrementAll h visited es j).listenerCount := by
  unfold decrementAll
  split
  · simp only [hh]
  · exact hh j

/-- With fuel beyond the length of the parent chain the rebuilt routine leaves a heap
(whether it ran to its end or raised for want of a parent) in which the tables are those
of the walk: every entry of the node decremented in the node and each ancestor. -/
theorem rebuiltDestroy_listenerCount (fuel : Nat) (h : ScopeHeap) (i : Nat) (l : List Nat)
    (hc : Ancestors h i l) (hf : l.length < fuel)
    (hnd : ((h i).listenerCount.map Prod.fst).Nodup) :
    ∃ h1, (rebuiltDestroy fuel h i).heap = some h1 ∧
      ∀ j, (h1 j).listenerCount
        = (decrementAll h (i :: l) (h i).listenerCount j).listenerCount := by
  obtain ⟨h0, hh0⟩ : ∃ h0, h0 = Function.update h i { h i with destroyed := true } :=
    ⟨_, rfl⟩
  have hlc : ∀ j, (h0 j).listenerCount = (h j).listenerCount := by
    intro j; rw [hh0]; exact listenerCount_update _ _ _ _ rfl
  have hpar : ∀ j, (h0 j).parent = (h j).parent := by
    intro j
    rw [hh0]
    by_cases hj : j = i
    · subst hj; simp
    · simp [Function.update_noteq hj]
  have hspec := forEachListenerCount_spec fuel i l hf (h i).listenerCount h0 hnd
    (by
      intro e he
      rw [hlc]
      exact CountTable.lookup_of_mem _ hnd e he)
    (Ancestors.congr hpar l i hc)
  have hrun : rebuiltDestroy fuel h i =
      match (h i).parent with
      | none => Outcome.raised (decrementAll h0 (i :: l) (h i).listenerCount)
      | some par => Outcome.done
          (severScope (unlinkFromParent (decrementAll h0 (i :: l) (h i).listenerCount) par i) i) := by
    unfold rebuiltDestroy
    simp only
    rw [← hh0, hlc i, hspec]
  rw [hrun]
  cases (h i).parent with
  | none =>
    exact ⟨_, rfl, fun j => decrementAll_listenerCount_congr h h0 _ _ hlc j⟩
  | some par =>
    refine ⟨_, rfl, fun j => ?_⟩
    rw [severScope_listenerCount, unlinkFromParent_listenerCount]
    exact decrementAll_listenerCount_congr h h0 _ _ hlc j

theorem decrementAll_listenerCount_of_mem (h : ScopeHeap) (visited : List Nat)
    (es : CountTable) (j : Nat) (hj : j ∈ visited) :
    (decrementAll h visited es j).listenerCount
      = es.foldl (fun t e => t.decrement e.2 e.1) (h j).listenerCount := by
  unfold decrementAll
  rw [if_pos hj]

/-- C8: for a node whose parent chain is the finite list `l`, with well-formed tables in
which every ancestor holds, for every name the node holds, at least the node's count, and
with fuel beyond the length of the chain: the rebuilt disposal routine leaves a heap in
which, for every name `n` the node held with count `c`, the node's own table has no entry
for `n` and each ancestor's table holds its count before minus `c`, with no entry when
that is zero; the counts of names the node did not hold are unchanged; and the sum of
each ancestor's counts is the sum before minus the sum of the node's counts. -/
theorem rebuilt_destroy_listener_counts (fuel : Nat) (h : ScopeHeap) (i : Nat) (l : List Nat)
    (hc : Ancestors h i l) (hf : l.length < fuel)
    (hnode : (h i).listenerCount.WF)
    (hanc : ∀ a ∈ l, (h a).listenerCount.WF ∧
      ∀ n c, (n, some c) ∈ (h i).listenerCount →
        ∃ b : Int, (h a).listenerCount.lookup n = some (some b) ∧ c ≤ b) :
    ∃ h1, (rebuiltDestroy fuel h i).heap = some h1 ∧
      (∀ n c, (n, some c) ∈ (h i).listenerCount →
        (h1 i).listenerCount.lookup n = none ∧
        ∀ a ∈ l, ∀ b : Int, (h a).listenerCount.lookup n = some (some b) →
          (h1 a).listenerCount.lookup n = if b - c = 0 then none else some (some (b - c))) ∧
      (∀ n, n ∉ (h i).listenerCount.map Prod.fst → ∀ a ∈ i :: l,
        (h1 a).listenerCount.lookup n = (h a).listenerCount.lookup n) ∧
      (∀ a ∈ l, ∃ sa sn : Int, (h a).listenerCount.sum = some sa ∧
        (h i).listenerCount.sum = some sn ∧ (h1 a).listenerCount.sum = some (sa - sn)) := by
  obtain ⟨h1, hrun, hlc⟩ := rebuiltDestroy_listenerCount fuel h i l hc hf hnode.1
  have htab : ∀ a ∈ i :: l, (h1 a).listenerCount
      = (h i).listenerCount.foldl (fun t e => t.decrement e.2 e.1) (h a).listenerCount :=
    fun a ha => (hlc a).trans (decrementAll_listenerCount_of_mem h _ _ a ha)
  have hself : ∀ e ∈ (h i).listenerCount,
      ∃ b : Int, (h i).listenerCount.lookup e.1 = some (some b) := by
    intro e he
    have h1 := CountTable.lookup_of_mem _ hnode.1 e he
    cases hv : e.2 with
    | none => exact absurd hv (hnode.2 e he)
    | some b => exact ⟨b, by rw [h1, hv]⟩
  have hex : ∀ a ∈ l, ∀ e ∈ (h i).listenerCount,
      ∃ b : Int, (h a).listenerCount.lookup e.1 = some (some b) := by
    intro a ha e he
    cases hv : e.2 with
    | none => exact absurd hv (hnode.2 e he)
    | some c =>
      obtain ⟨b, hb, -⟩ := (hanc a ha).2 e.1 c (by rw [← hv]; exact he)
      exact ⟨b, hb⟩
  refine ⟨h1, hrun, ?_, ?_, ?_⟩
  · intro n c hmem
    constructor
    · obtain ⟨-, -, f3, -⟩ :=
        CountTable.foldl_decrement_spec (h i).listenerCount hnode (h i).listenerCount hnode hself
      rw [htab i (List.mem_cons_self _ _),
        f3 n c hmem c (CountTable.lookup_of_mem _ hnode.1 (n, some c) hmem)]
      simp
    · intro a ha b hb
      obtain ⟨-, -, f3, -⟩ := CountTable.foldl_decrement_spec (h i).listenerCount hnode
        (h a).listenerCount (hanc a ha).1 (hex a ha)
      rw [htab a (List.mem_cons_of_mem _ ha)]
      exact f3 n c hmem b hb
  · intro n hn a ha
    rw [htab a ha]
    rcases List.mem_cons.1 ha with rfl | ha
    · obtain ⟨-, f2, -, -⟩ :=
        CountTable.foldl_decrement_spec (h a).listenerCount hnode (h a).listenerCount hnode hself
      exact f2 n hn
    · obtain ⟨-, f2, -, -⟩ := CountTable.foldl_decrement_spec (h i).listenerCount hnode
        (h a).listenerCount (hanc a ha).1 (hex a ha)
      exact f2 n hn
  · intro a ha
    obtain ⟨-, -, -, f4⟩ := CountTable.foldl_decrement_spec (h i).listenerCount hnode
      (h a).listenerCount (hanc a ha).1 (hex a ha)
    obtain ⟨sa, hsa⟩ := CountTable.sum_of_wf _ (hanc a ha).1
    obtain ⟨sn, hsn⟩ := CountTable.sum_of_wf _ hnode
    refine ⟨sa, sn, hsa, hsn, ?_⟩
    rw [htab a (List.mem_cons_of_mem _ ha), f4, hsa, hsn]
    rfl

theorem sampleHeap_ancestors :
    ∀ a ∈ [1, 0], (sampleHeap a).listenerCount.WF ∧
      ∀ n c, (n, some c) ∈ (sampleHeap 2).listenerCount →
        ∃ b : Int, (sampleHeap a).listenerCount.lookup n = some (some b) ∧ c ≤ b := by
  intro a ha
  have hmem : ∀ n c, (n, some c) ∈ (sampleHeap 2).listenerCount →
      (n = "$destroy" ∧ c = 2) ∨ (n = "scroll" ∧ c = 1) := by
    intro n c hm
    simpa [sampleHeap] using hm
  simp only [List.mem_cons, List.mem_singleton, List.not_mem_nil, or_false] at ha
  rcases ha with rfl | rfl
  · refine ⟨⟨by decide, by decide⟩, fun n c hm => ?_⟩
    rcases hmem n c hm with ⟨rfl, rfl⟩ | ⟨rfl, rfl⟩
    · exact ⟨3, by decide, by decide⟩
    · exact ⟨1, by decide, by decide⟩
  · refine ⟨⟨by decide, by decide⟩, fun n c hm => ?_⟩
    rcases hmem n c hm with ⟨rfl, rfl⟩ | ⟨rfl, rfl⟩
    · exact ⟨3, by decide, by decide⟩
    · exact ⟨5, by decide, by decide⟩

/-- C8 at the sample scope tree, disposing of the grandchild scope 2 whose ancestors are
1 and 0. -/
theorem rebuilt_destroy_listener_counts_witness :
    ∃ h1, (rebuiltDestroy 3 sampleHeap 2).heap = some h1 ∧
      (∀ n c, (n, some c) ∈ (sampleHeap 2).listenerCount →
        (h1 2).listenerCount.lookup n = none ∧
        ∀ a ∈ [1, 0], ∀ b : Int, (sampleHeap a).listenerCount.lookup n = some (some b) →
          (h1 a).listenerCount.lookup n = if b - c = 0 then none else some (some (b - c))) ∧
      (∀ n, n ∉ (sampleHeap 2).listenerCount.map Prod.fst → ∀ a ∈ [2, 1, 0],
        (h1 a).listenerCount.lookup n = (sampleHeap a).listenerCount.lookup n) ∧
      (∀ a ∈ [1, 0], ∃ sa sn : Int, (sampleHeap a).listenerCount.sum = some sa ∧
        (sampleHeap 2).listenerCount.sum = some sn ∧
        (h1 a).listenerCount.sum = some (sa - sn)) :=
  rebuilt_destroy_listener_counts 3 sampleHeap 2 [1, 0] ⟨rfl, rfl, rfl⟩ (by decide)
    ⟨by decide, by decide⟩ sampleHeap_ancestors

/-! ## C11: the child list after the rebuilt disposal routine -/

theorem SameLinks.self (h : ScopeHeap) : SameLinks h h :=
  fun _ => ⟨rfl, rfl, rfl, rfl, rfl, rfl⟩

theorem SameLinks.compose {h2 h1 h : ScopeHeap} (a : SameLinks h2 h1) (b : SameLinks h1 h) :
    SameLinks h2 h := by
  intro j
  obtain ⟨a1, a2, a3, a4, a5, a6⟩ := a j
  obtain ⟨b1, b2, b3, b4, b5, b6⟩ := b j
  exact ⟨a1.trans b1, a2.trans b2, a3.trans b3, a4.trans b4, a5.trans b5, a6.trans b6⟩

theorem decrementAt_sameLinks (h : ScopeHeap) (visited : List Nat) (c : Count) (n : String) :
    SameLinks (decrementAt h visited c n) h := by
  intro j
  unfold decrementAt
  split <;> exact ⟨rfl, rfl, rfl, rfl, rfl, rfl⟩

/-- With fuel beyond the length of the parent chain the loop over the names returns,
whatever the names, and leaves every tree link as it was. -/
theorem forEachListenerCount_links (fuel : Nat) (i : Nat) (l : List Nat)
    (hf : l.length < fuel) :
    ∀ (names : List String) (h : ScopeHeap), Ancestors h i l →
      ∃ h1, forEachListenerCount fuel h i names = some h1 ∧ SameLinks h1 h := by
  intro names
  induction names with
  | nil => intro h _; exact ⟨h, rfl, SameLinks.self h⟩
  | cons n names ih =>
    intro h hc
    cases hl : (h i).listenerCount.lookup n with
    | none =>
      obtain ⟨h1, e, sl⟩ := ih h hc
      exact ⟨h1, by simp only [forEachListenerCount, hl, e], sl⟩
    | some count =>
      have hd := decrementListenerCount_spec count n l fuel h i hc hf
      have hanc : Ancestors (decrementAt h (i :: l) count n) i l :=
        Ancestors.congr (decrementAt_parent h _ _ _) l i hc
      obtain ⟨h1, e, sl⟩ := ih _ hanc
      exact ⟨h1, by simp only [forEachListenerCount, hl, hd, e],
        SameLinks.compose sl (decrementAt_sameLinks h _ _ _)⟩

/-- A scope with a parent and a finite parent chain: with enough fuel the rebuilt
routine runs to its end, and what it leaves is the unlinking and severing of a heap with
the tree links of the heap it started from. -/
theorem rebuiltDestroy_done (fuel : Nat) (h : ScopeHeap) (i par : Nat) (rest : List Nat)
    (hc : Ancestors h i (par :: rest)) (hf : (par :: rest).length < fuel) :
    ∃ h1, SameLinks h1 h ∧
      rebuiltDestroy fuel h i = Outcome.done (severScope (unlinkFromParent h1 par i) i) := by
  obtain ⟨h0, hh0⟩ : ∃ h0, h0 = Function.update h i { h i with destroyed := true } :=
    ⟨_, rfl⟩
  have hlc : (h0 i).listenerCount = (h i).listenerCount := by
    rw [hh0]; simp
  have hsl : SameLinks h0 h := by
    intro j
    rw [hh0]
    by_cases hj : j = i
    · subst hj; simp
    · simp [Function.update_noteq hj]
  obtain ⟨h1, e, sl⟩ := forEachListenerCount_links fuel i (par :: rest) hf
    ((h i).listenerCount.map Prod.fst) h0
    (Ancestors.congr (fun j => (hsl j).1) _ i hc)
  refine ⟨h1, SameLinks.compose sl hsl, ?_⟩
  have hp : (h i).parent = some par := hc.1
  unfold rebuiltDestroy
  simp only
  rw [← hh0, hlc, e, hp]

theorem relinkHead_links (h : ScopeHeap) (par i j : Nat) :
    (relinkHead h par i j).nextSibling = (h j).nextSibling ∧
    (relinkHead h par i j).prevSibling = (h j).prevSibling ∧
    (relinkHead h par i j).childTail = (h j).childTail ∧
    (relinkHead h par i j).childHead =
      if j = par ∧ (h par).childHead = some i then (h i).nextSibling else (h j).childHead := by
  unfold relinkHead
  by_cases hcnd : (h par).childHead = some i
  · rw [if_pos hcnd]
    by_cases hj : j = par
    · subst hj; simp [hcnd]
    · simp [Function.update_noteq hj, hj]
  · rw [if_neg hcnd]
    simp [hcnd]

theorem relinkTail_links (h : ScopeHeap) (par i j : Nat) :
    (relinkTail h par i j).nextSibling = (h j).nextSibling ∧
    (relinkTail h par i j).prevSibling = (h j).prevSibling ∧
    (relinkTail h par i j).childHead = (h j).childHead ∧
    (relinkTail h par i j).childTail =
      if j = par ∧ (h par).childTail = some i then (h i).prevSibling else (h j).childTail := by
  unfold relinkTail
  by_cases hcnd : (h par).childTail = some i
  · rw [if_pos hcnd]
    by_cases hj : j = par
    · subst hj; simp [hcnd]
    · simp [Function.update_noteq hj, hj]
  · rw [if_neg hcnd]
    simp [hcnd]

theorem relinkPrev_links (h : ScopeHeap) (i j : Nat) :
    (relinkPrev h i j).prevSibling = (h j).prevSibling ∧
    (relinkPrev h i j).childHead = (h j).childHead ∧
    (relinkPrev h i j).childTail = (h j).childTail ∧
    (relinkPrev h i j).nextSibling =
      if (h i).prevSibling = some j then (h i).nextSibling else (h j).nextSibling := by
  unfold relinkPrev
  cases hp : (h i).prevSibling with
  | none => simp
  | some ps =>
    by_cases hj : j = ps
    · subst hj; simp
    · have : ps ≠ j := fun e => hj e.symm
      simp [Function.update_noteq hj, this]

theorem relinkNext_links (h : ScopeHeap) (i j : Nat) :
    (relinkNext h i j).nextSibling = (h j).nextSibling ∧
    (relinkNext h i j).childHead = (h j).childHead ∧
    (relinkNext h i j).childTail = (h j).childTail ∧
    (relinkNext h i j).prevSibling =
      if (h i).nextSibling = some j then (h i).prevSibling else (h j).prevSibling := by
  unfold relinkNext
  cases hp : (h i).nextSibling with
  | none => simp
  | some ns =>
    by_cases hj : j = ns
    · subst hj; simp
    · have : ns ≠ j := fun e => hj e.symm
      simp [Function.update_noteq hj, this]

/-- The tree links after lines 97-100, in terms of the links before. -/
theorem unlinkFromParent_links (h : ScopeHeap) (par i j : Nat) :
    (unlinkFromParent h par i j).childHead =
      (if j = par ∧ (h par).childHead = some i then (h i).nextSibling else (h j).childHead) ∧
    (unlinkFromParent h par i j).childTail =
      (if j = par ∧ (h par).childTail = some i then (h i).prevSibling else (h j).childTail) ∧
    (unlinkFromParent h par i j).nextSibling =
      (if (h i).prevSibling = some j then (h i).nextSibling else (h j).nextSibling) ∧
    (unlinkFromParent h par i j).prevSibling =
      (if (h i).nextSibling = some j then (h i).prevSibling else (h j).prevSibling) := by
  unfold unlinkFromParent
  have ha := relinkHead_links h par i
  have hb := relinkTail_links (relinkHead h par i) par i
  have hc := relinkPrev_links (relinkTail (relinkHead h par i) par i) i
  have hd := relinkNext_links (relinkPrev (relinkTail (relinkHead h par i) par i) i) i
  refine ⟨?_, ?_, ?_, ?_⟩
  · rw [(hd j).2.1, (hc j).2.1, (hb j).2.2.1, (ha j).2.2.2]
  · rw [(hd j).2.2.1, (hc j).2.2.1, (hb j).2.2.2, (ha par).2.2.1, (ha i).2.1, (ha j).2.2.1]
  · rw [(hd j).1, (hc j).2.2.2, (hb i).2.1, (ha i).2.1, (hb i).1, (ha i).1, (hb j).1, (ha j).1]
  · rw [(hd j).2.2.2, (hc j).1, (hb j).2.1, (ha j).2.1, (hc i).1, (hb i).2.1, (ha i).2.1,
      (hc i).2.2.2, (hb i).2.1, (ha i).2.1, (hb i).1, (ha i).1]
    simp

theorem erase_cons_ne (c i : Nat) (cs : List Nat) (h : c ≠ i) :
    (c :: cs).erase i = c :: cs.erase i :=
  List.erase_cons_tail (by simpa using h)

theorem getLast?_cons_of_some (c t : Nat) (m : List Nat) (h : m.getLast? = some t) :
    (c :: m).getLast? = some t := by
  cases m with
  | nil => simp at h
  | cons d m => rw [List.getLast?_cons_cons]; exact h

/-- The next sibling of a scope of the chain is a scope of the chain. -/
theorem SiblingChain.next_mem {h : ScopeHeap} (i : Nat) :
    ∀ (m : List Nat) (p : Option Nat), SiblingChain h p m → i ∈ m →
      ∀ q, (h i).nextSibling = some q → q ∈ m := by
  intro m
  induction m with
  | nil => intro p _ hi; cases hi
  | cons c cs ih =>
    intro p hc hi q hq
    obtain ⟨-, h2, h3⟩ := hc
    rcases List.mem_cons.1 hi with rfl | hi
    · rw [h2] at hq
      exact List.mem_cons_of_mem _ (List.mem_of_mem_head? hq)
    · exact List.mem_cons_of_mem _ (ih (some c) h3 hi q hq)

/-- The previous sibling of a scope of the chain is the scope before the chain or a scope
of the chain. -/
theorem SiblingChain.prev_mem {h : ScopeHeap} (i : Nat) :
    ∀ (m : List Nat) (p : Option Nat), SiblingChain h p m → i ∈ m →
      (h i).prevSibling = p ∨ ∃ q ∈ m, (h i).prevSibling = some q := by
  intro m
  induction m with
  | nil => intro p _ hi; cases hi
  | cons c cs ih =>
    intro p hc hi
    obtain ⟨h1, -, h3⟩ := hc
    rcases List.mem_cons.1 hi with rfl | hi
    · left; exact h1
    · right
      rcases ih (some c) h3 hi with e | ⟨q, hq, e⟩
      · exact ⟨c, List.mem_cons_self _ _, e⟩
      · exact ⟨q, List.mem_cons_of_mem _ hq, e⟩

/-- A chain stays a chain in a heap that agrees on the sibling links of its scopes. -/
theorem SiblingChain.frame {h h1 : ScopeHeap} :
    ∀ (m : List Nat) (p : Option Nat), SiblingChain h p m →
      (∀ j ∈ m, (h1 j).nextSibling = (h j).nextSibling ∧
        (h1 j).prevSibling = (h j).prevSibling) →
      SiblingChain h1 p m := by
  intro m
  induction m with
  | nil => intro p _ _; trivial
  | cons c cs ih =>
    intro p hc hs
    obtain ⟨h1', h2, h3⟩ := hc
    obtain ⟨e1, e2⟩ := hs c (List.mem_cons_self _ _)
    exact ⟨e2.trans h1', e1.trans h2,
      ih (some c) h3 (fun j hj => hs j (List.mem_cons_of_mem _ hj))⟩

/-- Taking `i` out of a chain: in a heap whose sibling links are those of lines 99-100
(the previous sibling of `i` points on to the next one and the next one back to the
previous one, every other link as before), the chain without `i` is a chain. -/
theorem SiblingChain.erase_node {h h1 : ScopeHeap} (i : Nat)
    (hN : ∀ j, j ≠ i → (h1 j).nextSibling =
      if (h i).prevSibling = some j then (h i).nextSibling else (h j).nextSibling)
    (hP : ∀ j, j ≠ i → (h1 j).prevSibling =
      if (h i).nextSibling = some j then (h i).prevSibling else (h j).prevSibling) :
    ∀ (m : List Nat) (p : Option Nat), SiblingChain h p m → m.Nodup → i ∈ m →
      (∀ q, p = some q → q ∉ m) → SiblingChain h1 p (m.erase i) := by
  intro m
  induction m with
  | nil => intro p _ _ hi; cases hi
  | cons c cs ih =>
    intro p hc hnd hi hp
    obtain ⟨c1, c2, c3⟩ := hc
    obtain ⟨hccs, hndcs⟩ := List.nodup_cons.1 hnd
    by_cases hci : c = i
    · subst hci
      rw [List.erase_cons_head]
      cases cs with
      | nil => trivial
      | cons d ds =>
        obtain ⟨d1, d2, d3⟩ := c3
        have hdc : d ≠ c := fun e => hccs (e ▸ List.mem_cons_self _ _)
        have hnext : (h c).nextSibling = some d := c2
        obtain ⟨hdds, -⟩ := List.nodup_cons.1 hndcs
        have hpd : ∀ j ∈ d :: ds, (h c).prevSibling ≠ some j := by
          intro j hj e
          rw [c1] at e
          exact hp j e (List.mem_cons_of_mem _ hj)
        refine ⟨?_, ?_, ?_⟩
        · rw [hP d hdc, if_pos hnext]
          exact c1
        · rw [hN d hdc, if_neg (hpd d (List.mem_cons_self _ _))]
          exact d2
        · refine SiblingChain.frame ds (some d) d3 (fun j hj => ?_)
          have hjc : j ≠ c := fun e =>
            hccs (e ▸ List.mem_cons_of_mem _ hj)
          have hjd : d ≠ j := fun e => hdds (e ▸ hj)
          constructor
          · rw [hN j hjc, if_neg (hpd j (List.mem_cons_of_mem _ hj))]
          · rw [hP j hjc, hnext, if_neg (fun e => hjd (Option.some.inj e))]
    · have hics : i ∈ cs := by
        rcases List.mem_cons.1 hi with e | e
        · exact absurd e.symm hci
        · exact e
      rw [erase_cons_ne c i cs hci]
      refine ⟨?_, ?_, ?_⟩
      · rw [hP c hci, if_neg]
        · exact c1
        · intro e
          exact hccs (SiblingChain.next_mem i cs (some c) c3 hics c e)
      · cases cs with
        | nil => cases hics
        | cons d rest =>
          obtain ⟨d1, d2, d3⟩ := c3
          have hcd : c ≠ d := fun e => hccs (e ▸ List.mem_cons_self _ _)
          by_cases hdi : d = i
          · subst hdi
            rw [List.erase_cons_head, hN c hci, if_pos d1]
            exact d2
          · have hirest : i ∈ rest := by
              rcases List.mem_cons.1 hics with e | e
              · exact absurd e.symm hdi
              · exact e
            have hne : (h i).prevSibling ≠ some c := by
              intro e
              rcases SiblingChain.prev_mem i rest (some d) d3 hirest with e2 | ⟨q, hq, e2⟩
              · rw [e] at e2
                exact hcd (Option.some.inj e2)
              · rw [e] at e2
                exact hccs (List.mem_cons_of_mem _ ((Option.some.inj e2) ▸ hq))
            rw [erase_cons_ne d i rest hdi, hN c hci, if_neg hne, c2]
            rfl
      · exact ih (some c) c3 hndcs hics (fun q e => (Option.some.inj e) ▸ hccs)

theorem getLast?_erase_ne (i t : Nat) (hne : t ≠ i) :
    ∀ m : List Nat, m.getLast? = some t → (m.erase i).getLast? = some t := by
  intro m
  induction m with
  | nil => intro h; simp at h
  | cons c cs ih =>
    intro h
    cases cs with
    | nil =>
      have hc : c = t := by simpa using h
      subst hc
      rw [erase_cons_ne c i [] hne]
      simp
    | cons d rest =>
      rw [List.getLast?_cons_cons] at h
      by_cases hci : c = i
      · subst hci
        rw [List.erase_cons_head]
        exact h
      · rw [erase_cons_ne c i _ hci]
        exact getLast?_cons_of_some c t _ (ih h)

/-- The previous sibling of the last scope of a chain is the last scope of the chain
without it, or the scope before the chain when nothing is left. -/
theorem SiblingChain.prev_of_last {h : ScopeHeap} (i : Nat) :
    ∀ (m : List Nat) (p : Option Nat), SiblingChain h p m → m.Nodup →
      m.getLast? = some i →
      (m.erase i = [] → (h i).prevSibling = p) ∧
      (∀ q, (m.erase i).getLast? = some q → (h i).prevSibling = some q) := by
  intro m
  induction m with
  | nil => intro p _ _ hl; simp at hl
  | cons c cs ih =>
    intro p hc hnd hl
    obtain ⟨c1, -, c3⟩ := hc
    obtain ⟨hccs, hndcs⟩ := List.nodup_cons.1 hnd
    cases cs with
    | nil =>
      have hci : c = i := by simpa using hl
      subst hci
      rw [List.erase_cons_head]
      exact ⟨fun _ => c1, (fun q hq => by simp at hq)⟩
    | cons d rest =>
      rw [List.getLast?_cons_cons] at hl
      have hi : i ∈ d :: rest := List.mem_of_mem_getLast? hl
      have hci : c ≠ i := fun e => hccs (e ▸ hi)
      obtain ⟨i1, i2⟩ := ih (some c) c3 hndcs hl
      rw [erase_cons_ne c i _ hci]
      refine ⟨(fun e => by cases e), fun q hq => ?_⟩
      cases hm : (d :: rest).erase i with
      | nil =>
        rw [hm] at hq
        have hqc : c = q := by simpa using hq
        rw [← hqc]
        exact i1 hm
      | cons x xs =>
        rw [hm, List.getLast?_cons_cons] at hq
        exact i2 q (by rw [hm]; exact hq)

/-- The child list of `par` without `i`, in a heap whose links are those the unlinking of
`i` leaves. -/
theorem ChildList.erase_child {h h1 : ScopeHeap} (par i : Nat) (l : List Nat)
    (hl : ChildList h par l) (hi : i ∈ l)
    (hH : (h1 par).childHead =
      if (h par).childHead = some i then (h i).nextSibling else (h par).childHead)
    (hT : (h1 par).childTail =
      if (h par).childTail = some i then (h i).prevSibling else (h par).childTail)
    (hN : ∀ j, j ≠ i → (h1 j).nextSibling =
      if (h i).prevSibling = some j then (h i).nextSibling else (h j).nextSibling)
    (hP : ∀ j, j ≠ i → (h1 j).prevSibling =
      if (h i).nextSibling = some j then (h i).prevSibling else (h j).prevSibling) :
    ChildList h1 par (l.erase i) := by
  obtain ⟨l1, l2, l3, l4⟩ := hl
  refine ⟨?_, ?_, l3.erase i,
    SiblingChain.erase_node i hN hP l none l4 l3 hi (fun q e => by cases e)⟩
  · rw [hH, l1]
    cases l with
    | nil => cases hi
    | cons c cs =>
      by_cases hci : c = i
      · subst hci
        rw [List.erase_cons_head, List.head?_cons, if_pos rfl]
        exact l4.2.1
      · rw [erase_cons_ne c i cs hci, List.head?_cons,
          if_neg (fun e => hci (Option.some.inj e))]
        rfl
  · rw [hT, l2]
    by_cases hlast : l.getLast? = some i
    · rw [if_pos hlast]
      obtain ⟨p1, p2⟩ := SiblingChain.prev_of_last i l none l4 l3 hlast
      cases hm : (l.erase i).getLast? with
      | none =>
        have : l.erase i = [] := by
          cases hx : l.erase i with
          | nil => rfl
          | cons x xs =>
            rw [hx] at hm
            have := List.getLast?_isSome.2 (List.cons_ne_nil x xs)
            rw [hm] at this
            cases this
        exact p1 this
      | some q => exact p2 q hm
    · rw [if_neg hlast]
      cases ht : l.getLast? with
      | none =>
        cases l with
        | nil => cases hi
        | cons c cs =>
          have := List.getLast?_isSome.2 (List.cons_ne_nil c cs)
          rw [ht] at this
          cases this
      | some t =>
        have hti : t ≠ i := fun e => hlast (by rw [ht, e])
        exact (getLast?_erase_ne i t hti l ht).symm

theorem ChildList.of_sameLinks {h h1 : ScopeHeap} (par : Nat) (l : List Nat)
    (hl : ChildList h par l) (hs : SameLinks h1 h) : ChildList h1 par l := by
  obtain ⟨l1, l2, l3, l4⟩ := hl
  obtain ⟨-, -, -, s4, s5, -⟩ := hs par
  exact ⟨s4.trans l1, s5.trans l2, l3,
    SiblingChain.frame l none l4 (fun j _ => ⟨(hs j).2.1, (hs j).2.2.1⟩)⟩

theorem severScope_of_ne (h : ScopeHeap) (i j : Nat) (hj : j ≠ i) :
    severScope h i j = h j := by
  unfold severScope
  exact Function.update_noteq hj _ _

theorem severScope_self (h : ScopeHeap) (i : Nat) :
    (severScope h i i).parent = none ∧ (severScope h i i).nextSibling = none ∧
    (severScope h i i).prevSibling = none ∧ (severScope h i i).childHead = none ∧
    (severScope h i i).childTail = none ∧ (severScope h i i).root = none := by
  unfold severScope
  simp

/-- C11: for a node `i` whose parent chain is finite and starts with `par`, where the
child list of `par` is the well-formed doubly linked list `l` containing `i`, and with
fuel beyond the length of the chain: the rebuilt disposal routine runs to its end, and
afterwards the child list of `par` is the well-formed doubly linked list `l` without `i`
(the other children, in their original order), and the parent, next-sibling,
previous-sibling, child-head, child-tail and root fields of `i` are all null. -/
theorem rebuilt_destroy_unlinks_node (fuel : Nat) (h : ScopeHeap) (i par : Nat)
    (rest l : List Nat)
    (hc : Ancestors h i (par :: rest)) (hf : (par :: rest).length < fuel)
    (hl : ChildList h par l) (hi : i ∈ l) :
    ∃ h1, rebuiltDestroy fuel h i = Outcome.done h1 ∧
      ChildList h1 par (l.erase i) ∧
      (∀ c, c ∈ l.erase i ↔ c ≠ i ∧ c ∈ l) ∧
      (l.erase i).Sublist l ∧
      (h1 i).parent = none ∧ (h1 i).nextSibling = none ∧ (h1 i).prevSibling = none ∧
      (h1 i).childHead = none ∧ (h1 i).childTail = none ∧ (h1 i).root = none := by
  obtain ⟨h0, hs, hrun⟩ := rebuiltDestroy_done fuel h i par rest hc hf
  have hpar : par ≠ i := fun e =>
    Ancestors.not_mem (par :: rest) i hc (e ▸ List.mem_cons_self _ _)
  have hl0 : ChildList h0 par l := ChildList.of_sameLinks par l hl hs
  have hu := unlinkFromParent_links h0 par i
  refine ⟨_, hrun, ?_, fun c => hl.2.2.1.mem_erase_iff, List.erase_sublist i l,
    severScope_self _ i⟩
  refine ChildList.erase_child par i l hl0 hi ?_ ?_ ?_ ?_
  · rw [severScope_of_ne _ i par hpar, (hu par).1]
    simp
  · rw [severScope_of_ne _ i par hpar, (hu par).2.1]
    simp
  · intro j hj
    rw [severScope_of_ne _ i j hj, (hu j).2.2.1]
  · intro j hj
    rw [severScope_of_ne _ i j hj, (hu j).2.2.2]

theorem sampleSiblings_childList : ChildList sampleSiblings 0 [1, 2, 3] :=
  ⟨by decide, by decide, by decide, by decide, by decide, by decide, by decide, by decide,
    by decide, trivial⟩

/-- C11 at the sample scope tree: disposing of the middle child 2 of the root 0 leaves
the child list 1, 3. -/
theorem rebuilt_destroy_unlinks_node_witness :
    ∃ h1, rebuiltDestroy 2 sampleSiblings 2 = Outcome.done h1 ∧
      ChildList h1 0 ([1, 2, 3].erase 2) ∧
      (∀ c, c ∈ [1, 2, 3].erase 2 ↔ c ≠ 2 ∧ c ∈ [1, 2, 3]) ∧
      ([1, 2, 3].erase 2).Sublist [1, 2, 3] ∧
      (h1 2).parent = none ∧ (h1 2).nextSibling = none ∧ (h1 2).prevSibling = none ∧
      (h1 2).childHead = none ∧ (h1 2).childTail = none ∧ (h1 2).root = none :=
  rebuilt_destroy_unlinks_node 2 sampleSiblings 2 0 [] [1, 2, 3]
    ⟨by decide, (by decide : (sampleSiblings 0).parent = none)⟩
    (by decide) sampleSiblings_childList (by decide)

end NgGrid
